import Mathlib

/-!
Verification of the change-impact analysis engine of the "ops" workspace tool.

The development shallowly embeds the core of the repository:
  * the diff status parser ("parse_git_statuses" in
    src/git/diff_name_status_since_branched.rs, lines 140-199),
  * the stream-selection logic of the local history-scan fallback of the
    base-commit resolver (same file, lines 55-97),
  * the package membership resolver ("get_cargo_package_of_file" in
    src/workspace_clippy.rs, lines 201-241),
  * the dependency closure reducer (the breadth-first loop of
    "workspace_clippy", lines 121-151), and
  * the driving control flow of "workspace_clippy" itself (lines 23-182).

Strings are modelled as lists of characters (the inputs of interest are
ASCII, where Rust's byte indexing and character indexing coincide), file
paths as lists of path components, and the filesystem / git side effects as
explicit function-valued inputs.  Rust HashMap / HashSet values are modelled
as association lists / lists with overwrite / membership-checking inserts;
where an iteration order of a hash container leaks into behaviour the model
fixes one order and the theorems quantify over orders where the claim under
scrutiny demands it.  External process invocations (running cargo clippy
itself) are out of scope; the model returns the decision that the code hands
to them.  Termination fuel is used where the Rust loop's termination measure
is not structural; every internal use instantiates the fuel so that it never
runs out on the paths the code can take.
-/

/-! ## Characters, strings and small utilities -/

/-- Strings are modelled as lists of characters. -/
abbrev Chars := List Char

/-- A file path, as its list of components ("crates/a/src/lib.rs" is
modelled as the list [crates, a, src, lib.rs]).  The empty list models the
empty path, whose Rust "parent()" is None. -/
abbrev Dir := List Chars

/-- Split a character list at every occurrence of the separator, keeping
empty pieces, as Rust's "split" does. -/
def splitOnChar (sep : Char) : Chars → List Chars
  | [] => [[]]
  | c :: rest =>
    let r := splitOnChar sep rest
    if c = sep then [] :: r
    else
      match r with
      | [] => [[c]]
      | h :: t => (c :: h) :: t

/-- Remove leading and trailing whitespace, as Rust's "str::trim" does on
ASCII input. -/
def trimChars (s : Chars) : Chars :=
  ((s.dropWhile Char.isWhitespace).reverse.dropWhile Char.isWhitespace).reverse

/-- The first whitespace-separated token of a line, as Rust's
"split_whitespace().next()" produces it: none on all-whitespace input. -/
def firstTok (s : Chars) : Option Chars :=
  match s.dropWhile Char.isWhitespace with
  | [] => none
  | c :: rest => some ((c :: rest).takeWhile (fun ch => ¬ ch.isWhitespace))

/-- Association-list lookup, first match wins (the model of HashMap
lookups; the model's insert keeps keys unique). -/
def lookupA {κ α : Type} [DecidableEq κ] : List (κ × α) → κ → Option α
  | [], _ => none
  | (k, v) :: rest, n => if n = k then some v else lookupA rest n

/-- Association-list insert with HashMap overwrite semantics: replace the
value when the key is present, append otherwise. -/
def insertA {κ α : Type} [DecidableEq κ] (l : List (κ × α)) (k : κ) (v : α) :
    List (κ × α) :=
  if (lookupA l k).isSome then
    l.map (fun kv => if kv.1 = k then (k, v) else kv)
  else l ++ [(k, v)]

/-- Set-style insert on a list: add at the back when absent (the model of
HashSet insert). -/
def insertL {α : Type} [DecidableEq α] (l : List α) (x : α) : List α :=
  if x ∈ l then l else l ++ [x]

/-! ## Diff status parser

Shallow embedding of "parse_git_statuses"
(src/git/diff_name_status_since_branched.rs, lines 140-199). -/

/-- The change-record type produced by the parser ("GitStatus" in the
source). -/
inductive GitStatus
  | added (file : Chars)
  | deleted (file : Chars)
  | fileTypeChanged (file : Chars)
  | modified (file : Chars)
  | renamed (old new : Chars)
deriving DecidableEq

/-- The path payload of the simple status lines: "line[2..].trim()". -/
def lineRest (line : Chars) : Chars := trimChars (line.drop 2)

/-- The rename-pair extraction of the source (lines 159-184): scan 4-byte
windows of "line[2..].trim()"; on the window " -> " take the slices
line[2..i+3] and line[i+7..], on a window whose first byte is a tab take
line[2..i+3] and line[i+4..]; a pair with equal trimmed sides collapses to
Modified.  The slice indices are applied to the whole line, exactly as the
source does. -/
def mkRenamePair (line : Chars) (e1 s2 : Nat) : GitStatus :=
  let old := trimChars ((line.drop 2).take (e1 - 2))
  let new := trimChars (line.drop s2)
  if old = new then .modified new else .renamed old new

/-- Window scan of the rename branch; the first argument is the remaining
window source, the second the current window index "i". -/
def renameScanGo (line : Chars) : Chars → Nat → Option GitStatus
  | c0 :: c1 :: c2 :: c3 :: rest, i =>
    if c0 = ' ' ∧ c1 = '-' ∧ c2 = '>' ∧ c3 = ' ' then
      some (mkRenamePair line (i + 3) (i + 7))
    else if c0 = '\t' then
      some (mkRenamePair line (i + 3) (i + 4))
    else
      renameScanGo line (c1 :: c2 :: c3 :: rest) (i + 1)
  | _, _ => none

/-- The whole rename branch: none models the unmatched fall-through that
makes the source return the unsupported-status error. -/
def renameScan (line : Chars) : Option GitStatus :=
  renameScanGo line (trimChars (line.drop 2)) 0

/-- The unsupported-status error message of the source: the format string
"unsupported git status: " followed by the offending line. -/
def unsupportedMsg (line : Chars) : Chars :=
  "unsupported git status: ".data ++ line

/-- Parse a single line that already passed the length filter.  Returns
ok none when the line has no token (all whitespace), an error on an
unsupported status code, and exactly one record otherwise, following the
if-chain of the source in order: A, D, M|MM|AM, R-prefixed, T, error. -/
def parseStatusLine (line : Chars) : Except Chars (Option GitStatus) :=
  match firstTok line with
  | none => .ok none
  | some status =>
    if status = "A".data then .ok (some (.added (lineRest line)))
    else if status = "D".data then .ok (some (.deleted (lineRest line)))
    else if status = "M".data ∨ status = "MM".data ∨ status = "AM".data then
      .ok (some (.modified (lineRest line)))
    else if status.take 1 = "R".data then
      match renameScan line with
      | some gs => .ok (some gs)
      | none => .error (unsupportedMsg line)
    else if status = "T".data then .ok (some (.fileTypeChanged (lineRest line)))
    else .error (unsupportedMsg line)

/-- Fold of the per-line parser over the filtered lines, accumulating the
records in order. -/
def parseGo : List Chars → List GitStatus → Except Chars (List GitStatus)
  | [], acc => .ok acc
  | l :: ls, acc =>
    match parseStatusLine l with
    | .error e => .error e
    | .ok none => parseGo ls acc
    | .ok (some gs) => parseGo ls (acc ++ [gs])

/-- The lines the parser iterates over: the trimmed text split at newlines,
restricted to lines of length at least 3. -/
def parseLines (text : Chars) : List Chars :=
  (splitOnChar '\n' (trimChars text)).filter (fun x => decide (3 ≤ x.length))

/-- Shallow embedding of "parse_git_statuses" (lines 140-199). -/
def parseGitStatuses (text : Chars) : Except Chars (List GitStatus) :=
  parseGo (parseLines text) []

deriving instance DecidableEq for Except

example : parseGitStatuses "A\tsrc/lib.rs".data =
    .ok [.added "src/lib.rs".data] := by decide

example : parseGitStatuses "M  a.rs\nD\tb.rs".data =
    .ok [.modified "a.rs".data, .deleted "b.rs".data] := by decide

/-! ## Parser lemmas -/

/-- The six status codes handled without positional rename scanning. -/
def simpleCodes : List Chars :=
  ["A".data, "D".data, "M".data, "MM".data, "AM".data, "T".data]

lemma parseStatusLine_simple (l s : Chars) (h1 : firstTok l = some s)
    (h2 : s ∈ simpleCodes) : ∃ g, parseStatusLine l = .ok (some g) := by
  unfold parseStatusLine
  rw [h1]
  simp only [simpleCodes, List.mem_cons, List.not_mem_nil, or_false] at h2
  rcases h2 with h | h | h | h | h | h <;> subst h <;> simp

lemma parseGo_total (ls : List Chars) :
    ∀ acc, (∀ l, l ∈ ls → ∃ g, parseStatusLine l = .ok (some g)) →
      ∃ recs, parseGo ls acc = .ok (acc ++ recs) ∧ recs.length = ls.length := by
  induction ls with
  | nil => intro acc _; exact ⟨[], by simp [parseGo]⟩
  | cons l ls ih =>
    intro acc h
    obtain ⟨g, hg⟩ := h l (by simp)
    obtain ⟨recs, hr, hlen⟩ := ih (acc ++ [g]) (fun x hx => h x (by simp [hx]))
    refine ⟨g :: recs, ?_, by simp [hlen]⟩
    simp only [parseGo, hg, hr]
    simp

lemma filter_len_eq_self (ls : List Chars) (h : ∀ l, l ∈ ls → 3 ≤ l.length) :
    ls.filter (fun x => decide (3 ≤ x.length)) = ls := by
  induction ls with
  | nil => rfl
  | cons l ls ih =>
    simp only [List.filter_cons]
    rw [if_pos (by simpa using h l (by simp)), ih (fun x hx => h x (by simp [hx]))]

lemma parseStatusLine_error_shape (l e : Chars)
    (h : parseStatusLine l = .error e) :
    e = unsupportedMsg l := by
  unfold parseStatusLine at h
  cases htok : firstTok l with
  | none => rw [htok] at h; cases h
  | some s =>
    rw [htok] at h
    dsimp only at h
    split_ifs at h
    all_goals try (split at h)
    all_goals try (cases h)
    all_goals rfl

lemma parseGo_err (ls : List Chars) :
    ∀ acc l, l ∈ ls → (∃ e, parseStatusLine l = .error e) →
      ∃ l', l' ∈ ls ∧ parseGo ls acc = .error (unsupportedMsg l') := by
  induction ls with
  | nil => intro _ _ h; cases h
  | cons hd ls ih =>
    intro acc l hmem ⟨e, he⟩
    rcases List.mem_cons.mp hmem with rfl | htail
    · exact ⟨l, by simp, by
        simp only [parseGo, he]
        rw [parseStatusLine_error_shape l e he]⟩
    · cases hhd : parseStatusLine hd with
      | error e' =>
        exact ⟨hd, by simp, by
          simp only [parseGo, hhd]
          rw [parseStatusLine_error_shape hd e' hhd]⟩
      | ok og =>
        cases og with
        | none =>
          obtain ⟨l', hl', hres⟩ := ih acc l htail ⟨e, he⟩
          exact ⟨l', by simp [hl'], by simp only [parseGo, hhd]; exact hres⟩
        | some g =>
          obtain ⟨l', hl', hres⟩ := ih (acc ++ [g]) l htail ⟨e, he⟩
          exact ⟨l', by simp [hl'], by simp only [parseGo, hhd]; exact hres⟩

/-! ## Claim C3: rename lines with identical old and new paths -/

/-- C3.  The claim states that parsing the diff line
"R100(tab)old.txt(tab)old.txt" yields exactly one Modified record carrying
"old.txt".  The code instead garbles the slice indices of the rename branch
(they only line up when the path payload starts at byte 3, whereas a real
similarity-scored status such as R100 makes it start at byte 5): the parse
yields a single Renamed record whose old side is the leftover "00" from
the similarity score and whose new side still contains the embedded tab.
This theorem evaluates the embedded parser at exactly the claim's input and
records the divergent output; the final conjunct checks that the produced
record is not a Modified record for "old.txt". -/
theorem rename_identical_paths_behavior :
    parseGitStatuses "R100\told.txt\told.txt".data =
      .ok [.renamed "00".data "ld.txt\told.txt".data] ∧
    decide ((GitStatus.renamed "00".data "ld.txt\told.txt".data) =
      .modified "old.txt".data) = false := by
  exact ⟨by decide, by decide⟩

/-! ## Claim C6: totality over supported status codes -/

/-- C6 counterexample.  "R10" is a single non-blank line whose status code
begins with R (a supported code in the claim's sense), yet the parser
returns an UnsupportedStatus error for it, because the window scan of the
rename branch finds no separator in the two remaining characters.  So a
diff text composed only of supported status codes need not parse to Ok. -/
theorem parse_rcode_error_cex :
    splitOnChar '\n' (trimChars "R10".data) = ["R10".data] ∧
    firstTok "R10".data = some "R10".data ∧
    (("R10".data : Chars).take 1 = "R".data) ∧
    parseGitStatuses "R10".data =
      .error (unsupportedMsg "R10".data) := by
  exact ⟨by decide, by decide, by decide, by decide⟩

/-- C6 (amended).  For every diff text whose lines (of the trimmed text,
split at newlines) all have length at least 3 and carry one of the simple
status codes A, D, M, MM, AM, T as their first token, parsing returns Ok
with exactly one record per line, and the result is uniquely determined.
(Determinism holds by construction: the embedded parser is a pure function
of the text; the final conjunct records the uniqueness of the output.)
The amendment relative to the claim: R-coded lines are excluded, since a
rename line without a recognizable separator window is an error, not a
record (see the counterexample), and lines shorter than 3 characters are
excluded, since the code skips them without producing a record. -/
theorem parse_simple_codes_total (text : Chars)
    (h : ∀ l, l ∈ splitOnChar '\n' (trimChars text) →
      3 ≤ l.length ∧ ∃ s, s ∈ simpleCodes ∧ firstTok l = some s) :
    ∃ rs, parseGitStatuses text = .ok rs ∧
      rs.length = (splitOnChar '\n' (trimChars text)).length ∧
      ∀ rs', parseGitStatuses text = .ok rs' → rs' = rs := by
  have hfl : parseLines text = splitOnChar '\n' (trimChars text) :=
    filter_len_eq_self _ (fun l hl => (h l hl).1)
  obtain ⟨recs, hr, hlen⟩ := parseGo_total (parseLines text) []
    (fun l hl => by
      obtain ⟨s, hmem, hs⟩ := (h l (hfl ▸ hl)).2
      exact parseStatusLine_simple l s hs hmem)
  refine ⟨recs, ?_, ?_, ?_⟩
  · simpa [parseGitStatuses] using hr
  · rw [← hfl, ← hlen]
  · intro rs' h'
    have : Except.ok (ε := Chars) rs' = .ok recs := by
      rw [← h']; simpa [parseGitStatuses] using hr
    injection this

/-- C6 witness: the amended theorem applied to a concrete two-line diff
text made of simple status codes. -/
theorem parse_simple_codes_total_app :
    ∃ rs, parseGitStatuses "A x.rs\nD y.rs".data = .ok rs ∧
      rs.length =
        (splitOnChar '\n' (trimChars "A x.rs\nD y.rs".data)).length ∧
      ∀ rs', parseGitStatuses "A x.rs\nD y.rs".data = .ok rs' → rs' = rs :=
  parse_simple_codes_total "A x.rs\nD y.rs".data (by decide)

/-! ## Claim C8: unsupported status codes are reported, never dropped -/

/-- C8.  Any line of the diff text that survives the length filter (length
at least 3) and whose first token is neither one of the six simple codes
nor a code beginning with R forces the whole parse to return an
UnsupportedStatus error naming an offending line of the input; no such
line is ever silently dropped into an Ok result. -/
theorem unsupported_status_errors (text l s : Chars)
    (hmem : l ∈ splitOnChar '\n' (trimChars text))
    (hlen : 3 ≤ l.length)
    (htok : firstTok l = some s)
    (hsimple : s ∉ simpleCodes)
    (hr : s.take 1 ≠ "R".data) :
    ∃ l', l' ∈ parseLines text ∧
      parseGitStatuses text = .error (unsupportedMsg l') := by
  have hnotA : s ≠ "A".data := fun e => hsimple (by rw [e]; simp [simpleCodes])
  have hnotD : s ≠ "D".data := fun e => hsimple (by rw [e]; simp [simpleCodes])
  have hnotM : ¬ (s = "M".data ∨ s = "MM".data ∨ s = "AM".data) := by
    rintro (e | e | e) <;> exact hsimple (by rw [e]; simp [simpleCodes])
  have hnotT : s ≠ "T".data := fun e => hsimple (by rw [e]; simp [simpleCodes])
  have herr : parseStatusLine l = .error (unsupportedMsg l) := by
    unfold parseStatusLine
    rw [htok]
    dsimp only
    rw [if_neg hnotA, if_neg hnotD, if_neg hnotM, if_neg hr, if_neg hnotT]
  have hl : l ∈ parseLines text := by
    unfold parseLines
    rw [List.mem_filter]
    exact ⟨hmem, by simpa using hlen⟩
  exact parseGo_err (parseLines text) [] l hl ⟨_, herr⟩

/-- C8 witness: a concrete one-line text with the unsupported status code
Z produces the unsupported-status error. -/
theorem unsupported_status_errors_app :
    ∃ l', l' ∈ parseLines "Z dummy.rs".data ∧
      parseGitStatuses "Z dummy.rs".data = .error (unsupportedMsg l') :=
  unsupported_status_errors "Z dummy.rs".data "Z dummy.rs".data "Z".data
    (by decide) (by decide) (by decide) (by decide) (by decide)

/-! ## Base-commit resolver: local history-scan stream selection

Shallow embedding of the two reading loops over the branch-containment
pipeline (src/git/diff_name_status_since_branched.rs, lines 76-97).  The
input stream is the sequence of lines the pipeline emits: for each
first-parent commit (newest first, as git rev-list emits them), the
branches containing it, then its marker line "COMMIT: (hash)".  The embed
treats the whole emitted stream as available to the second loop, which is
exactly the premise of the claim ("given the stream of lines emitted by
the branch-containment pipeline"); the racy truncation performed by
killing the two child processes is a timing effect outside the embedding
and is noted where relevant. -/

/-- Is this line a commit marker?  The source checks "line.len() >= 8 &&
line[..8] == COMMIT-prefix"; taking the first 8 characters and comparing
covers both conditions. -/
def isCommitMarker (t : Chars) : Bool := t.take 8 = "COMMIT: ".data

/-- First loop (lines 79-87): trim each line, skip marker lines, and stop
at the first line that differs from the starred current-branch line.
Returns the part of the stream after the consumed prefix. -/
def scanToForeignBranch (cur : Chars) : List Chars → List Chars
  | [] => []
  | l :: ls =>
    let t := trimChars l
    if isCommitMarker t then scanToForeignBranch cur ls
    else if t ≠ cur then ls
    else scanToForeignBranch cur ls

/-- Second loop (lines 92-96): read the remaining lines without trimming
and overwrite the base commit with the hash of every marker line; the last
marker wins. -/
def lastMarkerHash : List Chars → Option Chars → Option Chars
  | [], acc => acc
  | l :: ls, acc =>
    if isCommitMarker l then lastMarkerHash ls (some (l.drop 8))
    else lastMarkerHash ls acc

/-- The base commit the fallback scan selects, given the current branch
name and the emitted line stream.  The starred line "* (branch)" is the
one the source builds at line 56. -/
def selectBaseCommit (branch : Chars) (stream : List Chars) : Option Chars :=
  lastMarkerHash (scanToForeignBranch ('*' :: ' ' :: branch) stream) none

/-- Modelled from the spec: "determine the first commit that is contained
in some branch other than the current one".  Walk the stream keeping a
flag recording whether, since the previous marker, some containing-branch
line other than the current branch's was seen; the first marker reached
with the flag set names that commit.  This definition follows the spec's
words and exists only to be compared with the source's behaviour. -/
def specFirstForeignCommit (cur : Chars) : List Chars → Bool → Option Chars
  | [], _ => none
  | l :: ls, sawForeign =>
    let t := trimChars l
    if isCommitMarker t then
      if sawForeign then some (t.drop 8)
      else specFirstForeignCommit cur ls false
    else specFirstForeignCommit cur ls (sawForeign || decide (t ≠ cur))

/-- C5.  Concrete stream for a branch "main" with three first-parent
commits c1 (the tip, contained only in main), c2 and c3 (both also
contained in a branch "feature"; c2 is the newer of the two, hence the
first commit of the stream contained in a foreign branch — the branch
point the spec describes).  The code's second loop keeps overwriting the
base commit with every remaining marker, so it selects c3, the last
marker of the stream, while the spec-modelled selection yields c2.  The
final conjunct records that the two selections differ. -/
theorem base_commit_scan_behavior :
    selectBaseCommit "main".data
        ["* main".data, "COMMIT: c1".data,
         "* main".data, "  feature".data, "COMMIT: c2".data,
         "* main".data, "  feature".data, "COMMIT: c3".data] =
      some "c3".data ∧
    specFirstForeignCommit ('*' :: ' ' :: "main".data)
        ["* main".data, "COMMIT: c1".data,
         "* main".data, "  feature".data, "COMMIT: c2".data,
         "* main".data, "  feature".data, "COMMIT: c3".data] false =
      some "c2".data ∧
    decide (("c3".data : Chars) = "c2".data) = false := by
  exact ⟨by decide, by decide, by decide⟩

/-! ## Package membership resolver

Shallow embedding of "get_cargo_package_of_file"
(src/workspace_clippy.rs, lines 201-241) and of the state it threads. -/

/-- The filesystem and manifest content a run of workspace_clippy can
observe, as explicit functions.
  * hasManifest d: does the file d/Cargo.toml exist (the exists() probe of
    line 225);
  * manifest d: the parsed manifest at directory d, as the optional
    package.name and the key list of its dependencies table (none models a
    read or parse failure; a missing dependencies table is the empty list,
    matching the continue of line 142);
  * wsManifest: the workspace.dependencies table of the root manifest as a
    list of (name, optional path) pairs, none modelling a read, parse or
    missing-key failure (lines 72-79). -/
structure Workspace where
  hasManifest : Dir → Bool
  manifest : Dir → Option (Option String × List String)
  wsManifest : Option (List (String × Option Dir))

/-- The three memoization tables threaded through the membership walks:
package_paths (directory to owning package directory, a HashMap),
no_package_dirs and no_package_paths (HashSets). -/
structure MemoState where
  packagePaths : List (Dir × Dir)
  noPackageDirs : List Dir
  noPackagePaths : List Dir
deriving DecidableEq

/-- The initial state of lines 28-30: all tables empty. -/
def emptyMemo : MemoState := ⟨[], [], []⟩

/-- The shared tail of the walk (lines 235-238, reached both by the break
on a memoized no-package directory and by exhausting the parent chain):
mark every visited directory as packageless and record the file itself as
unowned. -/
def markNoPackage (st : MemoState) (subDirs : List Dir) (p : Dir) :
    MemoState :=
  { packagePaths := st.packagePaths
    noPackageDirs := subDirs.foldl insertL st.noPackageDirs
    noPackagePaths := insertL st.noPackagePaths p }

/-- The memoization write-back of lines 219-230: map every visited
directory to the owning package directory found. -/
def recordPackage (st : MemoState) (subDirs : List Dir) (pkg : Dir) :
    MemoState :=
  { st with
    packagePaths := subDirs.foldl (fun m d => insertA m d pkg) st.packagePaths }

/-- The upward walk of lines 211-238.  The loop walks cur_path through its
parent chain, pushing each parent onto package_sub_dirs before testing it;
the Nat argument is structural fuel, always instantiated with the length
of the current path, which bounds the parent chain exactly (the zero-fuel
arm with a nonempty path is unreachable). -/
def walkAux (ws : Workspace) (p : Dir) :
    Nat → Dir → List Dir → MemoState → MemoState
  | _, [], subDirs, st => markNoPackage st subDirs p
  | 0, _ :: _, _, st => st
  | fuel + 1, c :: cs, subDirs, st =>
    let par := (c :: cs).dropLast
    let subDirs2 := subDirs ++ [par]
    if par ∈ st.noPackageDirs then markNoPackage st subDirs2 p
    else
      match lookupA st.packagePaths par with
      | some pkg => recordPackage st subDirs2 pkg
      | none =>
        if ws.hasManifest par then recordPackage st subDirs2 par
        else walkAux ws p fuel par subDirs2 st

/-- The walk entered at the file itself, as the source does. -/
def walkGo (ws : Workspace) (p : Dir) (cur : Dir) (subDirs : List Dir)
    (st : MemoState) : MemoState :=
  walkAux ws p cur.length cur subDirs st

/-- The display string of a path: its components joined by slashes
(Rust's Path::display on the clean relative paths of a diff). -/
def displayDir : Dir → Chars
  | [] => []
  | [c] => c
  | c :: c2 :: rest => c ++ '/' :: displayDir (c2 :: rest)

/-- Rust's Path::extension on the final component: the part after the last
dot, none when there is no dot or when the only dot is the leading one of
a hidden file. -/
def extensionOf (p : Dir) : Option Chars :=
  match p.getLast? with
  | none => none
  | some f =>
    match splitOnChar '.' f with
    | [] => none
    | [_] => none
    | [[], _] => none
    | parts => parts.getLast?

/-- Path components of a raw diff path (the model of Path::new on the
clean relative paths git emits: split at slashes, dropping empty pieces). -/
def pathComponents (f : Chars) : Dir :=
  (splitOnChar '/' f).filter (fun c => decide (c ≠ []))

/-- Shallow embedding of "get_cargo_package_of_file" (lines 201-241): the
eligibility match of lines 207-210 (whole display equal to Cargo.toml, or
extension rs), then the upward walk. -/
def getCargoPackageOfFile (ws : Workspace) (p : Dir) (st : MemoState) :
    MemoState :=
  if displayDir p = "Cargo.toml".data ∨ extensionOf p = some "rs".data then
    walkGo ws p p [] st
  else st

/-- A sequence of calls on the same tables, in order (the loop of
workspace_clippy performs such a sequence). -/
def runWalks (ws : Workspace) (ps : List Dir) (st : MemoState) : MemoState :=
  ps.foldl (fun s p => getCargoPackageOfFile ws p s) st

/-- Ground truth of the walk, without memoization: the first directory of
the self-then-ancestors chain holding a manifest.  Fuel is again the
length of the directory path. -/
def dirPackageAux (ws : Workspace) : Nat → Dir → Option Dir
  | _, [] => if ws.hasManifest [] then some ([] : Dir) else none
  | 0, _ :: _ => none
  | fuel + 1, c :: cs =>
    if ws.hasManifest (c :: cs) then some (c :: cs)
    else dirPackageAux ws fuel ((c :: cs).dropLast)

/-- First self-or-ancestor directory with a manifest. -/
def dirPackage (ws : Workspace) (d : Dir) : Option Dir :=
  dirPackageAux ws d.length d

/-- Ground-truth owner of a file: the first ancestor directory (starting
at its parent) holding a manifest; none for the empty path, whose Rust
parent() is None. -/
def fileOwner (ws : Workspace) : Dir → Option Dir
  | [] => none
  | c :: cs => dirPackage ws ((c :: cs).dropLast)

/-- A sample workspace with a single package at crates/a and no root
manifest, used by concrete instantiations below. -/
def sampleWs : Workspace :=
  { hasManifest := fun d => d = ["crates".data, "a".data]
    manifest := fun d =>
      if d = ["crates".data, "a".data] then some (some "a", []) else none
    wsManifest := some [] }

example :
    getCargoPackageOfFile sampleWs
        ["crates".data, "a".data, "src".data, "lib.rs".data] emptyMemo =
      { packagePaths :=
          [(["crates".data, "a".data, "src".data], ["crates".data, "a".data]),
           (["crates".data, "a".data], ["crates".data, "a".data])]
        noPackageDirs := []
        noPackagePaths := [] } := by decide

example :
    getCargoPackageOfFile sampleWs ["stray".data, "lib.rs".data] emptyMemo =
      { packagePaths := []
        noPackageDirs := [["stray".data], []]
        noPackagePaths := [["stray".data, "lib.rs".data]] } := by decide

example :
    getCargoPackageOfFile sampleWs ["notes".data, "readme.md".data]
      emptyMemo = emptyMemo := by decide

/-! ## Utility lemmas on the container models -/

lemma mem_insertL {α : Type} [DecidableEq α] (l : List α) (x a : α) :
    a ∈ insertL l x ↔ a ∈ l ∨ a = x := by
  unfold insertL
  split_ifs with hx
  · constructor
    · exact fun h => Or.inl h
    · rintro (h | rfl) <;> [exact h; exact hx]
  · simp [List.mem_append]

lemma insertL_of_mem {α : Type} [DecidableEq α] {l : List α} {x : α}
    (h : x ∈ l) : insertL l x = l := by
  unfold insertL; rw [if_pos h]

lemma mem_foldl_insertL {α : Type} [DecidableEq α] (L : List α) :
    ∀ l (a : α), a ∈ L.foldl insertL l ↔ a ∈ l ∨ a ∈ L := by
  induction L with
  | nil => simp
  | cons x L ih =>
    intro l a
    simp only [List.foldl_cons, ih, mem_insertL, List.mem_cons]
    tauto

lemma foldl_insertL_of_mem {α : Type} [DecidableEq α] (L : List α) :
    ∀ l, (∀ x, x ∈ L → x ∈ l) → L.foldl insertL l = l := by
  induction L with
  | nil => intro _ _; rfl
  | cons x L ih =>
    intro l h
    simp only [List.foldl_cons, insertL_of_mem (h x (by simp))]
    exact ih l (fun y hy => h y (by simp [hy]))

lemma lookupA_replace_self {κ α : Type} [DecidableEq κ]
    (k : κ) (v : α) : ∀ l : List (κ × α), (lookupA l k).isSome = true →
    lookupA (l.map (fun kv => if kv.1 = k then (k, v) else kv)) k = some v := by
  intro l
  induction l with
  | nil => intro h; simp [lookupA] at h
  | cons kv l ih =>
    obtain ⟨k1, v1⟩ := kv
    intro h
    simp only [lookupA] at h
    by_cases hk : k1 = k
    · subst hk
      simp only [List.map_cons]
      simp [lookupA]
    · rw [if_neg (fun e : k = k1 => hk e.symm)] at h
      simp only [List.map_cons]
      rw [show (if ((k1, v1) : κ × α).1 = k then (k, v) else (k1, v1)) =
        (k1, v1) from if_neg hk]
      simp only [lookupA]
      rw [if_neg (fun e : k = k1 => hk e.symm)]
      exact ih h

lemma lookupA_replace_ne {κ α : Type} [DecidableEq κ]
    (k k' : κ) (v : α) (hne : k' ≠ k) : ∀ l : List (κ × α),
    lookupA (l.map (fun kv => if kv.1 = k then (k, v) else kv)) k' =
      lookupA l k' := by
  intro l
  induction l with
  | nil => rfl
  | cons kv l ih =>
    obtain ⟨k1, v1⟩ := kv
    by_cases hk : k1 = k
    · subst hk
      simp only [List.map_cons]
      simpa [lookupA, if_neg hne] using ih
    · simp only [List.map_cons]
      rw [show (if ((k1, v1) : κ × α).1 = k then (k, v) else (k1, v1)) =
        (k1, v1) from if_neg hk]
      simp only [lookupA]
      by_cases hk' : k' = k1
      · rw [if_pos hk', if_pos hk']
      · rw [if_neg hk', if_neg hk']
        exact ih

lemma lookupA_append_right {κ α : Type} [DecidableEq κ]
    (k : κ) : ∀ (l l2 : List (κ × α)), lookupA l k = none →
    lookupA (l ++ l2) k = lookupA l2 k := by
  intro l l2
  induction l with
  | nil => intro _; rfl
  | cons kv l ih =>
    obtain ⟨k1, v1⟩ := kv
    intro h
    simp only [lookupA, List.cons_append] at h ⊢
    by_cases hk : k = k1
    · rw [if_pos hk] at h; cases h
    · rw [if_neg hk] at h ⊢
      exact ih h

lemma lookupA_append_left {κ α : Type} [DecidableEq κ]
    (k : κ) (w : α) : ∀ (l l2 : List (κ × α)), lookupA l k = some w →
    lookupA (l ++ l2) k = some w := by
  intro l l2
  induction l with
  | nil => intro h; cases h
  | cons kv l ih =>
    obtain ⟨k1, v1⟩ := kv
    intro h
    simp only [lookupA, List.cons_append] at h ⊢
    by_cases hk : k = k1
    · rw [if_pos hk] at h ⊢; exact h
    · rw [if_neg hk] at h ⊢
      exact ih h

lemma lookupA_insertA_self {κ α : Type} [DecidableEq κ] (l : List (κ × α))
    (k : κ) (v : α) : lookupA (insertA l k v) k = some v := by
  unfold insertA
  split_ifs with hs
  · exact lookupA_replace_self k v l hs
  · have hnone : lookupA l k = none := by
      cases h : lookupA l k with
      | none => rfl
      | some w => rw [h] at hs; simp at hs
    rw [lookupA_append_right k l [(k, v)] hnone]
    simp [lookupA]

lemma lookupA_insertA_ne {κ α : Type} [DecidableEq κ] (l : List (κ × α))
    (k k' : κ) (v : α) (h : k' ≠ k) :
    lookupA (insertA l k v) k' = lookupA l k' := by
  unfold insertA
  split_ifs with hs
  · exact lookupA_replace_ne k k' v h l
  · cases hl : lookupA l k' with
    | none =>
      rw [lookupA_append_right k' l [(k, v)] hl]
      simp [lookupA, if_neg h]
    | some w => exact lookupA_append_left k' w l [(k, v)] hl

lemma lookupA_preserved_insertA {κ α : Type} [DecidableEq κ]
    (l : List (κ × α)) (k : κ) (v : α)
    (hcond : lookupA l k = none ∨ lookupA l k = some v) :
    ∀ d w, lookupA l d = some w → lookupA (insertA l k v) d = some w := by
  intro d w hd
  by_cases hdk : d = k
  · subst hdk
    rcases hcond with h | h
    · rw [h] at hd; cases hd
    · rw [h] at hd
      rw [lookupA_insertA_self]
      exact hd.symm ▸ rfl
  · rw [lookupA_insertA_ne l k d v hdk]
    exact hd

lemma lookupA_foldl_insertA {κ α : Type} [DecidableEq κ] (v : α)
    (L : List κ) : ∀ (l : List (κ × α)),
    (∀ k, k ∈ L → lookupA l k = none ∨ lookupA l k = some v) →
    ∀ d, lookupA (L.foldl (fun m x => insertA m x v) l) d =
      if d ∈ L then some v else lookupA l d := by
  induction L with
  | nil => intro l _ d; simp
  | cons x L ih =>
    intro l h d
    simp only [List.foldl_cons]
    rw [ih (insertA l x v) ?hcond d]
    case hcond =>
      intro k hk
      by_cases hkx : k = x
      · subst hkx; right; exact lookupA_insertA_self l k v
      · rw [lookupA_insertA_ne l x k v hkx]
        exact h k (by simp [hk])
    by_cases hd : d ∈ L
    · rw [if_pos hd, if_pos (by simp [hd])]
    · rw [if_neg hd]
      by_cases hdx : d = x
      · subst hdx
        rw [if_pos (by simp), lookupA_insertA_self]
      · rw [if_neg (by simp [hdx, hd]), lookupA_insertA_ne l x d v hdx]

lemma lookupA_isSome_iff_mem_keys {κ α : Type} [DecidableEq κ] (k : κ) :
    ∀ l : List (κ × α), (lookupA l k).isSome = true ↔ k ∈ l.map Prod.fst := by
  intro l
  induction l with
  | nil => simp [lookupA]
  | cons kv l ih =>
    obtain ⟨k1, v1⟩ := kv
    simp only [lookupA, List.map_cons, List.mem_cons]
    by_cases hk : k = k1
    · rw [if_pos hk]; simp [hk]
    · rw [if_neg hk]; simp [hk, ih]

lemma keys_insertA {κ α : Type} [DecidableEq κ] (l : List (κ × α))
    (k : κ) (v : α) :
    (insertA l k v).map Prod.fst =
      if (lookupA l k).isSome = true then l.map Prod.fst
      else l.map Prod.fst ++ [k] := by
  unfold insertA
  split_ifs with hs
  · rw [List.map_map]
    congr 1
    funext kv
    by_cases hk : kv.1 = k
    · simp [Function.comp, if_pos hk, hk]
    · simp [Function.comp, if_neg hk]
  · simp

lemma nodup_keys_insertA {κ α : Type} [DecidableEq κ] (l : List (κ × α))
    (k : κ) (v : α) (h : (l.map Prod.fst).Nodup) :
    ((insertA l k v).map Prod.fst).Nodup := by
  rw [keys_insertA]
  split_ifs with hs
  · exact h
  · rw [List.nodup_append]
    refine ⟨h, List.nodup_singleton k, ?_⟩
    intro a ha hb
    simp only [List.mem_singleton] at hb
    subst hb
    rw [← lookupA_isSome_iff_mem_keys] at ha
    rw [ha] at hs
    exact hs rfl

lemma nodup_keys_foldl_insertA {κ α : Type} [DecidableEq κ] (v : α)
    (L : List κ) : ∀ (l : List (κ × α)), (l.map Prod.fst).Nodup →
    ((L.foldl (fun m x => insertA m x v) l).map Prod.fst).Nodup := by
  induction L with
  | nil => intro l h; exact h
  | cons x L ih =>
    intro l h
    exact ih (insertA l x v) (nodup_keys_insertA l x v h)

lemma insertA_of_lookup_eq {κ α : Type} [DecidableEq κ] (k : κ) (v : α) :
    ∀ l : List (κ × α), (l.map Prod.fst).Nodup → lookupA l k = some v →
    insertA l k v = l := by
  intro l
  induction l with
  | nil => intro _ h; cases h
  | cons kv l ih =>
    obtain ⟨k1, v1⟩ := kv
    intro hnd h
    simp only [List.map_cons, List.nodup_cons] at hnd
    simp only [lookupA] at h
    unfold insertA at ih ⊢
    simp only [lookupA]
    by_cases hk : k = k1
    · have hv : v1 = v := by
        rw [if_pos hk] at h
        injection h
      have hcond : (if k = k1 then some v1 else lookupA l k).isSome = true := by
        rw [if_pos hk]; rfl
      rw [if_pos hcond]
      simp only [List.map_cons]
      rw [show (if ((k1, v1) : κ × α).1 = k then (k, v) else (k1, v1)) =
        (k, v) from if_pos hk.symm]
      have hmap : l.map (fun kv2 => if kv2.1 = k then (k, v) else kv2) = l := by
        have hcg : ∀ kv2 : κ × α, kv2 ∈ l →
            (if kv2.1 = k then (k, v) else kv2) = kv2 := by
          intro kv2 hkv2
          rw [if_neg]
          intro e
          exact hnd.1 (hk ▸ e ▸ List.mem_map_of_mem Prod.fst hkv2)
        calc l.map (fun kv2 => if kv2.1 = k then (k, v) else kv2)
            = l.map id := List.map_congr_left hcg
          _ = l := List.map_id l
      rw [hmap, hk, hv]
    · rw [if_neg hk] at h
      have hsome : (lookupA l k).isSome = true := by rw [h]; rfl
      have hcond : (if k = k1 then some v1 else lookupA l k).isSome = true := by
        rw [if_neg hk]; exact hsome
      rw [if_pos hcond]
      simp only [List.map_cons]
      rw [show (if ((k1, v1) : κ × α).1 = k then (k, v) else (k1, v1)) =
        (k1, v1) from if_neg (fun e => hk e.symm)]
      have hrec := ih hnd.2 h
      rw [if_pos hsome] at hrec
      rw [hrec]

/-! ## Ground-truth and walk unfolding lemmas -/

lemma dirPackage_nil (ws : Workspace) :
    dirPackage ws [] = if ws.hasManifest [] then some ([] : Dir) else none :=
  rfl

lemma dirPackage_cons (ws : Workspace) (c : Chars) (cs : List Chars) :
    dirPackage ws (c :: cs) =
      if ws.hasManifest (c :: cs) then some (c :: cs)
      else dirPackage ws ((c :: cs).dropLast) := by
  show dirPackageAux ws (cs.length + 1) (c :: cs) = _
  simp only [dirPackageAux, dirPackage, List.length_dropLast, List.length_cons,
    Nat.add_sub_cancel]

lemma dirPackage_self_of_manifest (ws : Workspace) (d : Dir)
    (h : ws.hasManifest d = true) : dirPackage ws d = some d := by
  cases d with
  | nil => rw [dirPackage_nil, if_pos h]
  | cons c cs => rw [dirPackage_cons, if_pos h]

lemma dirPackage_step (ws : Workspace) (c : Chars) (cs : List Chars)
    (h : ¬ ws.hasManifest (c :: cs) = true) :
    dirPackage ws (c :: cs) = dirPackage ws ((c :: cs).dropLast) := by
  rw [dirPackage_cons, if_neg h]

lemma fileOwner_eq_dirPackage_dropLast (ws : Workspace) (p : Dir)
    (h : p ≠ []) : fileOwner ws p = dirPackage ws p.dropLast := by
  cases p with
  | nil => exact absurd rfl h
  | cons c cs => rfl

lemma walkGo_nil (ws : Workspace) (p : Dir) (subDirs : List Dir)
    (st : MemoState) :
    walkGo ws p [] subDirs st = markNoPackage st subDirs p := rfl

lemma walkGo_cons (ws : Workspace) (p : Dir) (c : Chars) (cs : List Chars)
    (subDirs : List Dir) (st : MemoState) :
    walkGo ws p (c :: cs) subDirs st =
      (if (c :: cs).dropLast ∈ st.noPackageDirs then
        markNoPackage st (subDirs ++ [(c :: cs).dropLast]) p
      else
        match lookupA st.packagePaths ((c :: cs).dropLast) with
        | some pkg => recordPackage st (subDirs ++ [(c :: cs).dropLast]) pkg
        | none =>
          if ws.hasManifest ((c :: cs).dropLast) then
            recordPackage st (subDirs ++ [(c :: cs).dropLast]) ((c :: cs).dropLast)
          else walkGo ws p ((c :: cs).dropLast) (subDirs ++ [(c :: cs).dropLast]) st) := by
  show walkAux ws p (cs.length + 1) (c :: cs) subDirs st = _
  simp only [walkAux, walkGo, List.length_dropLast, List.length_cons,
    Nat.add_sub_cancel]

/-! ## The memoization invariant and the walk specification -/

/-- The correctness invariant of the memoization tables: package_paths
entries record the ground-truth owning package of their directory,
no_package_dirs members have no self-or-ancestor manifest, no_package_paths
members are files without an owner, and package_paths keys are unique (as
HashMap keys are). -/
def MemoInv (ws : Workspace) (st : MemoState) : Prop :=
  (∀ d pkg, lookupA st.packagePaths d = some pkg → dirPackage ws d = some pkg) ∧
  (∀ d, d ∈ st.noPackageDirs → dirPackage ws d = none) ∧
  (∀ q, q ∈ st.noPackagePaths → fileOwner ws q = none) ∧
  (st.packagePaths.map Prod.fst).Nodup

/-- Monotone growth of the three tables: existing answers survive. -/
def Grows (st st2 : MemoState) : Prop :=
  (∀ d v, lookupA st.packagePaths d = some v →
    lookupA st2.packagePaths d = some v) ∧
  (∀ d, d ∈ st.noPackageDirs → d ∈ st2.noPackageDirs) ∧
  (∀ q, q ∈ st.noPackagePaths → q ∈ st2.noPackagePaths)

lemma grows_refl (st : MemoState) : Grows st st :=
  ⟨fun _ _ h => h, fun _ h => h, fun _ h => h⟩

lemma grows_trans {st1 st2 st3 : MemoState} (h1 : Grows st1 st2)
    (h2 : Grows st2 st3) : Grows st1 st3 :=
  ⟨fun d v h => h2.1 d v (h1.1 d v h),
   fun d h => h2.2.1 d (h1.2.1 d h),
   fun q h => h2.2.2 q (h1.2.2 q h)⟩

/-- The file's answer is recorded in the tables: either its parent is
memoized packageless and the file is listed as unowned, or the parent is
memoized with the ground-truth owning package. -/
def ResolvedM (ws : Workspace) (st : MemoState) (p : Dir) : Prop :=
  (fileOwner ws p = none →
    p.dropLast ∈ st.noPackageDirs ∧ p ∈ st.noPackagePaths) ∧
  (∀ pkg, fileOwner ws p = some pkg →
    lookupA st.packagePaths p.dropLast = some pkg)

lemma resolvedM_of_grows {ws : Workspace} {st st2 : MemoState} {p : Dir}
    (h : ResolvedM ws st p) (hg : Grows st st2) : ResolvedM ws st2 p :=
  ⟨fun hnone => ⟨hg.2.1 _ (h.1 hnone).1, hg.2.2 _ (h.1 hnone).2⟩,
   fun pkg hsome => hg.1 _ _ (h.2 pkg hsome)⟩

lemma mem_of_head_eq {α : Type} {l : List α} {a : α}
    (h : l.head? = some a) : a ∈ l := by
  cases l with
  | nil => cases h
  | cons x xs => injection h with h; simp [h]

lemma mem_of_getLast_eq {α : Type} {a : α} : ∀ {l : List α},
    l.getLast? = some a → a ∈ l := by
  intro l
  induction l with
  | nil => intro h; cases h
  | cons x xs ih =>
    intro h
    cases xs with
    | nil =>
      simp only [List.getLast?_singleton] at h
      injection h with h
      simp [h]
    | cons y ys =>
      rw [List.getLast?_cons_cons] at h
      exact List.mem_cons_of_mem x (ih h)

/-- Conclusions of a walk that ends in the shared no-package tail. -/
lemma mark_spec (ws : Workspace) (p : Dir) (st : MemoState)
    (subDirs2 : List Dir)
    (hInv : MemoInv ws st)
    (hall : ∀ d, d ∈ subDirs2 → dirPackage ws d = none)
    (hdrop : p.dropLast ∈ subDirs2)
    (hfo : fileOwner ws p = none) :
    MemoInv ws (markNoPackage st subDirs2 p) ∧
    Grows st (markNoPackage st subDirs2 p) ∧
    (∀ q, q ∈ (markNoPackage st subDirs2 p).noPackagePaths ↔
      q ∈ st.noPackagePaths ∨ (q = p ∧ fileOwner ws p = none)) ∧
    ResolvedM ws (markNoPackage st subDirs2 p) p := by
  obtain ⟨h1, h2, h3, h4⟩ := hInv
  refine ⟨⟨h1, ?_, ?_, h4⟩, ⟨fun d v h => h, ?_, ?_⟩, ?_, ?_, ?_⟩
  · intro d hd
    rcases (mem_foldl_insertL subDirs2 st.noPackageDirs d).mp hd with hd | hd
    · exact h2 d hd
    · exact hall d hd
  · intro q hq
    rcases (mem_insertL st.noPackagePaths p q).mp hq with hq | rfl
    · exact h3 q hq
    · exact hfo
  · intro d hd
    exact (mem_foldl_insertL subDirs2 st.noPackageDirs d).mpr (Or.inl hd)
  · intro q hq
    exact (mem_insertL st.noPackagePaths p q).mpr (Or.inl hq)
  · intro q
    rw [show (markNoPackage st subDirs2 p).noPackagePaths =
      insertL st.noPackagePaths p from rfl]
    rw [mem_insertL]
    constructor
    · rintro (hq | rfl)
      · exact Or.inl hq
      · exact Or.inr ⟨rfl, hfo⟩
    · rintro (hq | ⟨rfl, _⟩)
      · exact Or.inl hq
      · exact Or.inr rfl
  · intro _
    constructor
    · exact (mem_foldl_insertL subDirs2 st.noPackageDirs p.dropLast).mpr
        (Or.inr hdrop)
    · exact (mem_insertL st.noPackagePaths p p).mpr (Or.inr rfl)
  · intro pkg hsome
    rw [hfo] at hsome
    cases hsome

/-- Conclusions of a walk that ends by recording an owning package. -/
lemma record_spec (ws : Workspace) (p : Dir) (hp : p ≠ []) (st : MemoState)
    (subDirs2 : List Dir) (pkg : Dir)
    (hInv : MemoInv ws st)
    (hall : ∀ d, d ∈ subDirs2 → dirPackage ws d = some pkg)
    (hpre : ∀ k, k ∈ subDirs2 → lookupA st.packagePaths k = none ∨
      lookupA st.packagePaths k = some pkg)
    (hdrop : p.dropLast ∈ subDirs2) :
    MemoInv ws (recordPackage st subDirs2 pkg) ∧
    Grows st (recordPackage st subDirs2 pkg) ∧
    (∀ q, q ∈ (recordPackage st subDirs2 pkg).noPackagePaths ↔
      q ∈ st.noPackagePaths ∨ (q = p ∧ fileOwner ws p = none)) ∧
    ResolvedM ws (recordPackage st subDirs2 pkg) p := by
  obtain ⟨h1, h2, h3, h4⟩ := hInv
  have hchar := lookupA_foldl_insertA pkg subDirs2 st.packagePaths hpre
  have hfo : fileOwner ws p = some pkg := by
    rw [fileOwner_eq_dirPackage_dropLast ws p hp]
    exact hall p.dropLast hdrop
  refine ⟨⟨?_, h2, h3, ?_⟩, ⟨?_, fun d h => h, fun q h => h⟩, ?_, ?_, ?_⟩
  · intro d pk hlook
    rw [show (recordPackage st subDirs2 pkg).packagePaths =
      subDirs2.foldl (fun m x => insertA m x pkg) st.packagePaths from rfl] at hlook
    rw [hchar d] at hlook
    by_cases hd : d ∈ subDirs2
    · rw [if_pos hd] at hlook
      injection hlook with hlook
      rw [← hlook]
      exact hall d hd
    · rw [if_neg hd] at hlook
      exact h1 d pk hlook
  · exact nodup_keys_foldl_insertA pkg subDirs2 st.packagePaths h4
  · intro d v hlook
    rw [show (recordPackage st subDirs2 pkg).packagePaths =
      subDirs2.foldl (fun m x => insertA m x pkg) st.packagePaths from rfl]
    rw [hchar d]
    by_cases hd : d ∈ subDirs2
    · rw [if_pos hd]
      rcases hpre d hd with hnone | hsome
      · rw [hnone] at hlook; cases hlook
      · rw [hsome] at hlook; exact hlook
    · rw [if_neg hd]; exact hlook
  · intro q
    constructor
    · intro hq
      exact Or.inl hq
    · rintro (hq | ⟨rfl, hbad⟩)
      · exact hq
      · rw [hfo] at hbad; cases hbad
  · intro hnone
    rw [hfo] at hnone; cases hnone
  · intro pk hsome
    rw [hfo] at hsome
    injection hsome with hsome
    rw [show (recordPackage st subDirs2 pkg).packagePaths =
      subDirs2.foldl (fun m x => insertA m x pkg) st.packagePaths from rfl]
    rw [hchar p.dropLast, if_pos hdrop, hsome]

/-- Main specification of the upward walk: starting from a state whose
tables are correct, the walk keeps them correct, only grows them, adds the
file to no_package_paths exactly when it is eligible-and-unowned, and
leaves the file's answer memoized. -/
lemma walkGo_spec (ws : Workspace) (p : Dir) (hp : p ≠ []) :
    ∀ (n : Nat) (cur : Dir), cur.length ≤ n →
      ∀ (subDirs : List Dir) (st : MemoState),
      MemoInv ws st →
      (∀ d, d ∈ subDirs → ws.hasManifest d = false ∧ d ∉ st.noPackageDirs ∧
        lookupA st.packagePaths d = none) →
      (∀ d, d ∈ subDirs → dirPackage ws d = dirPackage ws cur) →
      ((subDirs = [] ∧ cur = p) ∨
        (subDirs.head? = some p.dropLast ∧ subDirs.getLast? = some cur)) →
      MemoInv ws (walkGo ws p cur subDirs st) ∧
      Grows st (walkGo ws p cur subDirs st) ∧
      (∀ q, q ∈ (walkGo ws p cur subDirs st).noPackagePaths ↔
        q ∈ st.noPackagePaths ∨ (q = p ∧ fileOwner ws p = none)) ∧
      ResolvedM ws (walkGo ws p cur subDirs st) p := by
  intro n
  induction n with
  | zero =>
    intro cur hlen subDirs st hInv hA hB hC
    have hcur : cur = [] := List.length_eq_zero.mp (Nat.le_zero.mp hlen)
    subst hcur
    rcases hC with ⟨_, hpnil⟩ | ⟨hhead, hlast⟩
    · exact absurd hpnil.symm hp
    · have hnilmem : ([] : Dir) ∈ subDirs := mem_of_getLast_eq hlast
      have hnil : dirPackage ws ([] : Dir) = none := by
        rw [dirPackage_nil, if_neg]
        rw [(hA [] hnilmem).1]
        simp
      have hall : ∀ d, d ∈ subDirs → dirPackage ws d = none := by
        intro d hd
        rw [hB d hd, hnil]
      have hfo : fileOwner ws p = none := by
        rw [fileOwner_eq_dirPackage_dropLast ws p hp]
        rw [hall p.dropLast (mem_of_head_eq hhead)]
      rw [walkGo_nil]
      exact mark_spec ws p st subDirs hInv hall (mem_of_head_eq hhead) hfo
  | succ n ih =>
    intro cur hlen subDirs st hInv hA hB hC
    cases cur with
    | nil =>
      rcases hC with ⟨_, hpnil⟩ | ⟨hhead, hlast⟩
      · exact absurd hpnil.symm hp
      · have hnilmem : ([] : Dir) ∈ subDirs := mem_of_getLast_eq hlast
        have hnil : dirPackage ws ([] : Dir) = none := by
          rw [dirPackage_nil, if_neg]
          rw [(hA [] hnilmem).1]
          simp
        have hall : ∀ d, d ∈ subDirs → dirPackage ws d = none := by
          intro d hd
          rw [hB d hd, hnil]
        have hfo : fileOwner ws p = none := by
          rw [fileOwner_eq_dirPackage_dropLast ws p hp]
          rw [hall p.dropLast (mem_of_head_eq hhead)]
        rw [walkGo_nil]
        exact mark_spec ws p st subDirs hInv hall (mem_of_head_eq hhead) hfo
    | cons c cs =>
      -- the parent examined this iteration
      have hchain : dirPackage ws (c :: cs) = dirPackage ws ((c :: cs).dropLast) ∨
          (subDirs = [] ∧ (c :: cs) = p) := by
        rcases hC with ⟨hs, hc⟩ | ⟨_, hlast⟩
        · exact Or.inr ⟨hs, hc⟩
        · have hcmem : (c :: cs) ∈ subDirs := mem_of_getLast_eq hlast
          exact Or.inl (dirPackage_step ws c cs (by rw [(hA _ hcmem).1]; simp))
      have hBpar : ∀ d, d ∈ subDirs ++ [(c :: cs).dropLast] →
          dirPackage ws d = dirPackage ws ((c :: cs).dropLast) := by
        intro d hd
        rcases List.mem_append.mp hd with hd | hd
        · rcases hchain with hch | ⟨hs, _⟩
          · rw [hB d hd, hch]
          · rw [hs] at hd; cases hd
        · rw [List.mem_singleton.mp hd]
      have hdropmem : p.dropLast ∈ subDirs ++ [(c :: cs).dropLast] := by
        rcases hC with ⟨hs, hc⟩ | ⟨hhead, _⟩
        · rw [hs, hc]; simp
        · exact List.mem_append.mpr (Or.inl (mem_of_head_eq hhead))
      have hheadpar : (subDirs ++ [(c :: cs).dropLast]).head? = some p.dropLast := by
        rcases hC with ⟨hs, hc⟩ | ⟨hhead, _⟩
        · rw [hs, hc]; rfl
        · cases subDirs with
          | nil => cases hhead
          | cons s ss => simpa using hhead
      rw [walkGo_cons]
      by_cases hnp : (c :: cs).dropLast ∈ st.noPackageDirs
      · rw [if_pos hnp]
        have hparnone : dirPackage ws ((c :: cs).dropLast) = none :=
          hInv.2.1 _ hnp
        have hall : ∀ d, d ∈ subDirs ++ [(c :: cs).dropLast] →
            dirPackage ws d = none := by
          intro d hd
          rw [hBpar d hd, hparnone]
        have hfo : fileOwner ws p = none := by
          rw [fileOwner_eq_dirPackage_dropLast ws p hp]
          rw [hall p.dropLast hdropmem]
        exact mark_spec ws p st _ hInv hall hdropmem hfo
      · rw [if_neg hnp]
        cases hlook : lookupA st.packagePaths ((c :: cs).dropLast) with
        | some pkg =>
          have hparpkg : dirPackage ws ((c :: cs).dropLast) = some pkg :=
            hInv.1 _ _ hlook
          have hall : ∀ d, d ∈ subDirs ++ [(c :: cs).dropLast] →
              dirPackage ws d = some pkg := by
            intro d hd
            rw [hBpar d hd, hparpkg]
          have hpre : ∀ k, k ∈ subDirs ++ [(c :: cs).dropLast] →
              lookupA st.packagePaths k = none ∨
              lookupA st.packagePaths k = some pkg := by
            intro k hk
            rcases List.mem_append.mp hk with hk | hk
            · exact Or.inl (hA k hk).2.2
            · rw [List.mem_singleton.mp hk]
              exact Or.inr hlook
          exact record_spec ws p hp st _ pkg hInv hall hpre hdropmem
        | none =>
          by_cases hman : ws.hasManifest ((c :: cs).dropLast)
          · rw [if_pos hman]
            have hparpkg : dirPackage ws ((c :: cs).dropLast) =
                some ((c :: cs).dropLast) :=
              dirPackage_self_of_manifest ws _ hman
            have hall : ∀ d, d ∈ subDirs ++ [(c :: cs).dropLast] →
                dirPackage ws d = some ((c :: cs).dropLast) := by
              intro d hd
              rw [hBpar d hd, hparpkg]
            have hpre : ∀ k, k ∈ subDirs ++ [(c :: cs).dropLast] →
                lookupA st.packagePaths k = none ∨
                lookupA st.packagePaths k = some ((c :: cs).dropLast) := by
              intro k hk
              rcases List.mem_append.mp hk with hk | hk
              · exact Or.inl (hA k hk).2.2
              · rw [List.mem_singleton.mp hk]
                exact Or.inl hlook
            exact record_spec ws p hp st _ _ hInv hall hpre hdropmem
          · rw [if_neg hman]
            have hlen2 : ((c :: cs).dropLast).length ≤ n := by
              rw [List.length_dropLast]
              simp only [List.length_cons] at hlen ⊢
              omega
            have hA2 : ∀ d, d ∈ subDirs ++ [(c :: cs).dropLast] →
                ws.hasManifest d = false ∧ d ∉ st.noPackageDirs ∧
                lookupA st.packagePaths d = none := by
              intro d hd
              rcases List.mem_append.mp hd with hd | hd
              · exact hA d hd
              · rw [List.mem_singleton.mp hd]
                exact ⟨by rw [Bool.eq_false_iff]; exact hman, hnp, hlook⟩
            have hC2 : (subDirs ++ [(c :: cs).dropLast] = [] ∧
                (c :: cs).dropLast = p) ∨
                ((subDirs ++ [(c :: cs).dropLast]).head? = some p.dropLast ∧
                 (subDirs ++ [(c :: cs).dropLast]).getLast? =
                   some ((c :: cs).dropLast)) := by
              refine Or.inr ⟨hheadpar, ?_⟩
              rw [List.getLast?_append]
              rfl
            exact ih ((c :: cs).dropLast) hlen2 (subDirs ++ [(c :: cs).dropLast])
              st hInv hA2 hBpar hC2

/-! ## Function-level lemmas for the membership resolver -/

/-- The eligibility condition of lines 207-210: the display string is
exactly Cargo.toml, or the extension is rs. -/
def eligibleFile (p : Dir) : Prop :=
  displayDir p = "Cargo.toml".data ∨ extensionOf p = some "rs".data

instance (p : Dir) : Decidable (eligibleFile p) := by
  unfold eligibleFile; infer_instance

lemma getCargo_eq (ws : Workspace) (p : Dir) (st : MemoState) :
    getCargoPackageOfFile ws p st =
      if eligibleFile p then walkGo ws p p [] st else st := rfl

lemma eligible_ne_nil (p : Dir) (h : eligibleFile p) : p ≠ [] := by
  rintro rfl
  rcases h with h | h
  · exact absurd h (by decide)
  · exact absurd h (by decide)

/-- An eligible-by-display path is the single component Cargo.toml, hence
its final component is Cargo.toml. -/
lemma display_eq_cargo (p : Dir) (h : displayDir p = "Cargo.toml".data) :
    p.getLast? = some "Cargo.toml".data := by
  match p with
  | [] => exact absurd h (by decide)
  | [c] =>
    rw [show displayDir [c] = c from rfl] at h
    rw [h]
    rfl
  | c :: c2 :: rest =>
    exfalso
    have hmem : '/' ∈ displayDir (c :: c2 :: rest) := by
      rw [show displayDir (c :: c2 :: rest) =
        c ++ '/' :: displayDir (c2 :: rest) from rfl]
      exact List.mem_append.mpr (Or.inr (by simp))
    rw [h] at hmem
    exact absurd hmem (by decide)

/-- Specification of get_cargo_package_of_file on a correct state: the
invariant is kept, the tables only grow, the unowned set gains exactly an
eligible unowned file, and an eligible file ends up memoized. -/
lemma getCargo_spec (ws : Workspace) (p : Dir) (st : MemoState)
    (hInv : MemoInv ws st) :
    MemoInv ws (getCargoPackageOfFile ws p st) ∧
    Grows st (getCargoPackageOfFile ws p st) ∧
    (∀ q, q ∈ (getCargoPackageOfFile ws p st).noPackagePaths ↔
      q ∈ st.noPackagePaths ∨
      (q = p ∧ eligibleFile p ∧ fileOwner ws p = none)) ∧
    (eligibleFile p → ResolvedM ws (getCargoPackageOfFile ws p st) p) := by
  rw [getCargo_eq]
  by_cases he : eligibleFile p
  · rw [if_pos he]
    have hp := eligible_ne_nil p he
    obtain ⟨i1, i2, i3, i4⟩ := walkGo_spec ws p hp p.length p le_rfl [] st hInv
      (by intro d hd; cases hd) (by intro d hd; cases hd) (Or.inl ⟨rfl, rfl⟩)
    refine ⟨i1, i2, ?_, fun _ => i4⟩
    intro q
    rw [i3 q]
    constructor
    · rintro (hq | ⟨rfl, hfo⟩)
      · exact Or.inl hq
      · exact Or.inr ⟨rfl, he, hfo⟩
    · rintro (hq | ⟨rfl, _, hfo⟩)
      · exact Or.inl hq
      · exact Or.inr ⟨rfl, hfo⟩
  · rw [if_neg he]
    refine ⟨hInv, grows_refl st, ?_, fun he2 => absurd he2 he⟩
    intro q
    constructor
    · exact fun hq => Or.inl hq
    · rintro (hq | ⟨_, he2, _⟩)
      · exact hq
      · exact absurd he2 he

/-- Once the answer for a file is memoized, running
get_cargo_package_of_file on it again leaves the tables untouched. -/
lemma getCargo_stable (ws : Workspace) (p : Dir) (st : MemoState)
    (hInv : MemoInv ws st)
    (hres : eligibleFile p → ResolvedM ws st p) :
    getCargoPackageOfFile ws p st = st := by
  rw [getCargo_eq]
  by_cases he : eligibleFile p
  · rw [if_pos he]
    have hp := eligible_ne_nil p he
    have hres := hres he
    obtain ⟨c, cs, rfl⟩ : ∃ c cs, p = c :: cs := by
      cases p with
      | nil => exact absurd rfl hp
      | cons c cs => exact ⟨c, cs, rfl⟩
    rw [walkGo_cons]
    cases hfo : fileOwner ws (c :: cs) with
    | none =>
      obtain ⟨hnd, hnp⟩ := hres.1 hfo
      rw [show (c :: cs).dropLast = (c :: cs).dropLast from rfl]
      rw [if_pos (by
        rw [show (c :: cs).dropLast = List.dropLast (c :: cs) from rfl]
        exact hnd)]
      unfold markNoPackage
      have h1 : (([] : List Dir) ++ [(c :: cs).dropLast]).foldl insertL
          st.noPackageDirs = st.noPackageDirs := by
        simp only [List.nil_append, List.foldl_cons, List.foldl_nil]
        exact insertL_of_mem hnd
      have h2 : insertL st.noPackagePaths (c :: cs) = st.noPackagePaths :=
        insertL_of_mem hnp
      rw [h1, h2]
    | some pkg =>
      have hlk : lookupA st.packagePaths ((c :: cs).dropLast) = some pkg :=
        hres.2 pkg hfo
      have hnotnp : (c :: cs).dropLast ∉ st.noPackageDirs := by
        intro hmem
        have hn := hInv.2.1 _ hmem
        have hs := hInv.1 _ _ hlk
        rw [hn] at hs
        cases hs
      rw [if_neg hnotnp, hlk]
      dsimp only
      unfold recordPackage
      have h1 : (([] : List Dir) ++ [(c :: cs).dropLast]).foldl
          (fun m x => insertA m x pkg) st.packagePaths = st.packagePaths := by
        simp only [List.nil_append, List.foldl_cons, List.foldl_nil]
        exact insertA_of_lookup_eq _ pkg st.packagePaths hInv.2.2.2 hlk
      rw [h1]
  · rw [if_neg he]

lemma memoInv_empty (ws : Workspace) : MemoInv ws emptyMemo := by
  refine ⟨?_, ?_, ?_, ?_⟩
  · intro d pkg h; cases h
  · intro d h; cases h
  · intro q h; cases h
  · exact List.nodup_nil

/-- Running a sequence of membership walks keeps the invariant, only grows
the tables, and leaves every eligible processed file memoized. -/
lemma runWalks_spec (ws : Workspace) (ps : List Dir) :
    ∀ st, MemoInv ws st →
      MemoInv ws (runWalks ws ps st) ∧ Grows st (runWalks ws ps st) ∧
      (∀ p, p ∈ ps → eligibleFile p →
        ResolvedM ws (runWalks ws ps st) p) := by
  induction ps with
  | nil =>
    intro st hInv
    exact ⟨hInv, grows_refl st, fun p hp => absurd hp (by simp)⟩
  | cons p ps ih =>
    intro st hInv
    obtain ⟨i1, i2, _, i4⟩ := getCargo_spec ws p st hInv
    obtain ⟨j1, j2, j3⟩ := ih (getCargoPackageOfFile ws p st) i1
    have hstep : runWalks ws (p :: ps) st =
        runWalks ws ps (getCargoPackageOfFile ws p st) := rfl
    rw [hstep]
    refine ⟨j1, grows_trans i2 j2, ?_⟩
    intro q hq he
    rcases List.mem_cons.mp hq with rfl | hq
    · exact resolvedM_of_grows (i4 he) j2
    · exact j3 q hq he

/-- Once every path of the sequence is memoized, re-running the whole
sequence is the identity on the tables. -/
lemma runWalks_stable (ws : Workspace) (ps : List Dir) :
    ∀ st, MemoInv ws st →
      (∀ p, p ∈ ps → eligibleFile p → ResolvedM ws st p) →
      runWalks ws ps st = st := by
  induction ps with
  | nil => intro st _ _; rfl
  | cons p ps ih =>
    intro st hInv hres
    have hstep : getCargoPackageOfFile ws p st = st :=
      getCargo_stable ws p st hInv (hres p (by simp))
    have : runWalks ws (p :: ps) st =
        runWalks ws ps (getCargoPackageOfFile ws p st) := rfl
    rw [this, hstep]
    exact ih st hInv (fun q hq => hres q (by simp [hq]))

/-! ## Claim C9: idempotence of the membership walk -/

/-- C9.  For every workspace and every sequence of file paths, running the
package-membership walk over the sequence a second time, with the
memoization tables retained from the first run, leaves the tables exactly
as the first run left them: every file keeps the same owning package and
the unowned set is unchanged, so the memoized answers never change any
result. -/
theorem membership_walk_idempotent (ws : Workspace) (ps : List Dir) :
    runWalks ws ps (runWalks ws ps emptyMemo) = runWalks ws ps emptyMemo := by
  obtain ⟨hInv1, _, hres⟩ := runWalks_spec ws ps emptyMemo (memoInv_empty ws)
  exact runWalks_stable ws ps _ hInv1 (fun p hp he => hres p hp he)

/-! ## Claim C10: the two memoization tables stay disjoint -/

/-- C10.  Starting from empty tables, after any sequence of calls to
get_cargo_package_of_file no directory is simultaneously a key of
package_paths and a member of no_package_dirs: the two memoization tables
answer contradictory questions, and the invariant that keys of the former
have a ground-truth owner while members of the latter have none keeps
them disjoint. -/
theorem memo_tables_disjoint (ws : Workspace) (ps : List Dir) (d : Dir)
    (h : d ∈ (runWalks ws ps emptyMemo).packagePaths.map Prod.fst) :
    (d ∈ (runWalks ws ps emptyMemo).noPackageDirs) ↔ False := by
  rw [iff_false]
  intro hmem
  have hInv := (runWalks_spec ws ps emptyMemo (memoInv_empty ws)).1
  rw [← lookupA_isSome_iff_mem_keys] at h
  obtain ⟨pkg, hpkg⟩ := Option.isSome_iff_exists.mp h
  have h1 := hInv.1 d pkg hpkg
  have h2 := hInv.2.1 d hmem
  rw [h2] at h1
  cases h1

/-- C10 witness: in the sample workspace, after the walk for
crates/a/src/lib.rs the directory crates/a/src is a package_paths key and
is not in no_package_dirs. -/
theorem memo_tables_disjoint_app :
    (["crates".data, "a".data, "src".data] ∈
      (runWalks sampleWs
        [["crates".data, "a".data, "src".data, "lib.rs".data]]
        emptyMemo).noPackageDirs) ↔ False :=
  memo_tables_disjoint sampleWs
    [["crates".data, "a".data, "src".data, "lib.rs".data]]
    ["crates".data, "a".data, "src".data] (by decide)

/-! ## workspace_clippy control flow

Shallow embedding of the driving function (src/workspace_clippy.rs,
lines 23-182).  The final cargo clippy invocations are external
collaborators; the embedding returns the decision handed to them: the
whole-workspace sentinel (workspace_run, lines 184-199) or the top-level
package list of the closure reduction. -/

/-- The result the function hands to the external check runner. -/
inductive Outcome
  | workspaceRun
  | packages (names : List String)
deriving DecidableEq

/-- The error paths of the embedding, structured where the source formats
strings: membership carries the no_package_paths set of line 66; the
manifest errors carry the offending place; closure stands for the
load/lookup failures inside the reduction loop (lines 130-141) and for
exhausted fuel, which no run with adequate fuel reaches. -/
inductive ClippyErr
  | membership (paths : List Dir)
  | workspaceManifest
  | packageManifest (dir : Dir)
  | closure
deriving DecidableEq

/-- The existing and removed file of one change record, as the match of
lines 35-46 assigns them: (existing, removed). -/
def statusFiles : GitStatus → Option Chars × Option Chars
  | .added f => (some f, none)
  | .fileTypeChanged f => (some f, none)
  | .modified f => (some f, none)
  | .deleted f => (none, some f)
  | .renamed old new => (some new, some old)

/-- Both raw paths a record contributes to the membership pass. -/
def recordFiles (r : GitStatus) : List Chars :=
  (statusFiles r).1.toList ++ (statusFiles r).2.toList

/-- Is this raw path the workspace-level manifest or lockfile (the exact
comparisons of lines 50 and 58)? -/
def isWorkspaceFile (f : Chars) : Prop :=
  f = "Cargo.toml".data ∨ f = "Cargo.lock".data

instance (f : Chars) : Decidable (isWorkspaceFile f) := by
  unfold isWorkspaceFile; infer_instance

/-- Process one raw path: none models the early return into workspace_run
(lines 50-52 and 58-60), some the membership walk. -/
def procOne (ws : Workspace) (f : Chars) (st : MemoState) :
    Option MemoState :=
  if isWorkspaceFile f then none
  else some (getCargoPackageOfFile ws (pathComponents f) st)

/-- Process an optional path (the "if let Some" of lines 48 and 56). -/
def procOpt (ws : Workspace) (of : Option Chars) (st : MemoState) :
    Option MemoState :=
  match of with
  | none => some st
  | some f => procOne ws f st

/-- The record loop of lines 32-63: existing path first, then removed
path; none models the early return with the whole-workspace sentinel. -/
def runStatuses (ws : Workspace) :
    List GitStatus → MemoState → Option MemoState
  | [], st => some st
  | r :: rs, st =>
    match procOpt ws (statusFiles r).1 st with
    | none => none
    | some st1 =>
      match procOpt ws (statusFiles r).2 st1 with
      | none => none
      | some st2 => runStatuses ws rs st2

/-! ### The dependency closure reducer (lines 121-151) -/

/-- The loop state: the queue of package names, the analyzed set, the
top-level candidate set, and the package_cargos cache (name to the key
list of its dependencies table). -/
structure BfsState where
  queue : List String
  analyzed : List String
  topLevel : List String
  cargos : List (String × List String)
deriving DecidableEq

/-- Lines 129-136: take the package's cargo from the cache, or load it on
demand — which requires the name to be a key of internal_crate_path_map
(else the line-132 error) and the manifest read to succeed.  The model
abstracts path lookup plus file read into manifestOf, indexed by name. -/
def loadCargo (internal : List String)
    (manifestOf : String → Option (List String))
    (cargos : List (String × List String)) (n : String) :
    Option (List (String × List String) × List String) :=
  match lookupA cargos n with
  | some deps => some (cargos, deps)
  | none =>
    if n ∈ internal then
      match manifestOf n with
      | some deps => some (insertA cargos n deps, deps)
      | none => none
    else none

/-- The dependency pass of lines 145-150: one left fold over the keys of
the package's dependencies table, removing each dependency from the
top-level candidates and appending the not-yet-analyzed internal
dependencies to the queue. -/
def bfsDepPass (analyzed internal : List String) (deps : List String)
    (topLevel rest : List String) : List String × List String :=
  deps.foldl
    (fun pr dep =>
      (pr.1.filter (fun b => decide (b ≠ dep)),
       if dep ∈ analyzed then pr.2
       else if dep ∈ internal then pr.2 ++ [dep] else pr.2))
    (topLevel, rest)

/-- The while loop of lines 125-151, structural in fuel (the queue-empty
exit is checked before fuel, so any fuel serves an empty queue).  Each
iteration pops the front name, marks it analyzed, loads its dependency
list, removes every dependency from the top-level candidates (line 146)
and enqueues the not-yet-analyzed internal dependencies (lines 147-149). -/
def bfsLoop (internal : List String)
    (manifestOf : String → Option (List String)) :
    Nat → BfsState → Option (List String)
  | 0, st =>
    match st.queue with
    | [] => some st.topLevel
    | _ :: _ => none
  | fuel + 1, st =>
    match st.queue with
    | [] => some st.topLevel
    | n :: rest =>
      let analyzed := insertL st.analyzed n
      match loadCargo internal manifestOf st.cargos n with
      | none => none
      | some (cargos, deps) =>
        let pr := bfsDepPass analyzed internal deps st.topLevel rest
        bfsLoop internal manifestOf fuel ⟨pr.2, analyzed, pr.1, cargos⟩

/-- Lines 83-101: read each changed package directory's manifest and
collect (package name, directory, dependency keys); any read failure or
missing package.name aborts. -/
def loadChanged (ws : Workspace) :
    List Dir → Except ClippyErr (List (String × Dir × List String))
  | [] => .ok []
  | d :: ds =>
    match ws.manifest d with
    | none => .error (.packageManifest d)
    | some (none, _) => .error (.packageManifest d)
    | some (some name, deps) =>
      match loadChanged ws ds with
      | .error e => .error e
      | .ok rest => .ok ((name, d, deps) :: rest)

/-- Shallow embedding of workspace_clippy (lines 23-182).  Fuel only
bounds the closure loop's iterations; every theorem below either holds
for all fuel or is instantiated with enough of it.  The unused
external_crates set of lines 105-118 is dropped; the iteration order of
the hash containers is fixed to insertion order. -/
def workspaceClippy (fuel : Nat) (ws : Workspace)
    (records : List GitStatus) : Except ClippyErr Outcome :=
  match runStatuses ws records emptyMemo with
  | none => .ok .workspaceRun
  | some st =>
    if st.noPackagePaths = [] then
      match ws.wsManifest with
      | none => .error .workspaceManifest
      | some wsDeps =>
        let packageDirs := (st.packagePaths.map Prod.snd).foldl insertL []
        match loadChanged ws packageDirs with
        | .error e => .error e
        | .ok triples =>
          let internalMap := wsDeps.foldl
            (fun m nv =>
              match nv.2 with
              | some pth => insertA m nv.1 pth
              | none => m)
            (triples.map (fun t => (t.1, t.2.1)))
          let internal := internalMap.map Prod.fst
          let cargos := triples.map (fun t => (t.1, t.2.2))
          let changed := triples.map Prod.fst
          let manifestOf : String → Option (List String) := fun nm =>
            match lookupA internalMap nm with
            | none => none
            | some d =>
              match ws.manifest d with
              | none => none
              | some (_, deps) => some deps
          match bfsLoop internal manifestOf fuel
              ⟨changed, [], changed, cargos⟩ with
          | none => .error .closure
          | some topLevel => .ok (.packages topLevel)
    else .error (.membership st.noPackagePaths)

example :
    workspaceClippy 3 sampleWs [.modified "Cargo.toml".data] =
      .ok .workspaceRun := by decide

example :
    workspaceClippy 3 sampleWs [.deleted "Cargo.lock".data] =
      .ok .workspaceRun := by decide

example :
    workspaceClippy 3 sampleWs [.modified "crates/a/Cargo.toml".data] =
      .ok (.packages []) := by decide

example :
    workspaceClippy 3 sampleWs [.modified "crates/a/src/lib.rs".data] =
      .ok (.packages ["a"]) := by decide

example :
    workspaceClippy 3 sampleWs [.modified "stray/lib.rs".data] =
      .error (.membership [["stray".data, "lib.rs".data]]) := by decide

/-! ## Claim C4: only manifest-named or source-extension files trigger a
lookup -/

/-- C4.  First part: for every workspace, file path and table state, a
file whose final component is not Cargo.toml and whose extension is not rs
is ineligible, so get_cargo_package_of_file returns immediately and leaves
all three tables unchanged (the code's display-string test is stricter
than the claim's file-name condition, so the claim's "only for" direction
holds a fortiori).  Second part: the claim's concrete scenario — a changed
file notes/readme.md makes the whole run produce the empty target set,
contributing nothing. -/
theorem ineligible_file_no_lookup :
    (∀ (ws : Workspace) (p : Dir) (st : MemoState),
      p.getLast? ≠ some "Cargo.toml".data →
      extensionOf p ≠ some "rs".data →
      getCargoPackageOfFile ws p st = st) ∧
    (∀ fuel : Nat,
      workspaceClippy fuel sampleWs [.modified "notes/readme.md".data] =
        .ok (.packages [])) := by
  constructor
  · intro ws p st h1 h2
    rw [getCargo_eq, if_neg]
    rintro (hd | he)
    · exact h1 (display_eq_cargo p hd)
    · exact h2 he
  · intro fuel
    cases fuel with
    | zero => rfl
    | succ n => rfl

/-- C4 witness: the theorem applied to the sample workspace, the path
notes/readme.md and the empty tables. -/
theorem ineligible_file_no_lookup_app :
    getCargoPackageOfFile sampleWs ["notes".data, "readme.md".data]
      emptyMemo = emptyMemo ∧
    workspaceClippy 3 sampleWs [.modified "notes/readme.md".data] =
      .ok (.packages []) :=
  ⟨ineligible_file_no_lookup.1 sampleWs ["notes".data, "readme.md".data]
      emptyMemo (by decide) (by decide),
   ineligible_file_no_lookup.2 3⟩

/-! ## Claim C2: the whole-workspace trigger -/

/-- Does a record name the workspace-level manifest or lockfile among its
existing or removed path? -/
def triggerRecord (r : GitStatus) : Prop :=
  (∃ f, (statusFiles r).1 = some f ∧ isWorkspaceFile f) ∨
  (∃ f, (statusFiles r).2 = some f ∧ isWorkspaceFile f)

lemma runStatuses_trigger (ws : Workspace) :
    ∀ (records : List GitStatus) (st : MemoState),
      (∃ r, r ∈ records ∧ triggerRecord r) →
      runStatuses ws records st = none := by
  intro records
  induction records with
  | nil =>
    intro st ⟨r, hmem, _⟩
    cases hmem
  | cons r rs ih =>
    intro st ⟨r0, hmem, htr⟩
    rcases List.mem_cons.mp hmem with rfl | hmem
    · unfold runStatuses
      rcases htr with ⟨f, hf, hws⟩ | ⟨f, hf, hws⟩
      · rw [show procOpt ws (statusFiles r0).1 st =
          procOne ws f st from by rw [hf]; rfl]
        unfold procOne
        rw [if_pos hws]
      · cases h1 : procOpt ws (statusFiles r0).1 st with
        | none => rfl
        | some st1 =>
          dsimp only
          rw [show procOpt ws (statusFiles r0).2 st1 =
            procOne ws f st1 from by rw [hf]; rfl]
          unfold procOne
          rw [if_pos hws]
    · unfold runStatuses
      cases h1 : procOpt ws (statusFiles r).1 st with
      | none => rfl
      | some st1 =>
        dsimp only
        cases h2 : procOpt ws (statusFiles r).2 st1 with
        | none => rfl
        | some st2 =>
          dsimp only
          exact ih st2 ⟨r0, hmem, htr⟩

/-- C2.  First part: whenever any record of the parsed diff carries the
exact path Cargo.toml or Cargo.lock as its existing or removed file, the
whole run short-circuits to the whole-workspace sentinel, for every
workspace, fuel and surrounding record list (in particular with zero
other changed files).  Second part: a manifest in a subdirectory does not
trigger it — the concrete run on crates/a/Cargo.toml alone yields the
explicit (empty) package set, not the sentinel. -/
theorem workspace_manifest_trigger :
    (∀ (fuel : Nat) (ws : Workspace) (records : List GitStatus),
      (∃ r, r ∈ records ∧ triggerRecord r) →
      workspaceClippy fuel ws records = .ok .workspaceRun) ∧
    (∀ fuel : Nat,
      workspaceClippy fuel sampleWs [.modified "crates/a/Cargo.toml".data] =
        .ok (.packages [])) := by
  constructor
  · intro fuel ws records h
    unfold workspaceClippy
    rw [runStatuses_trigger ws records emptyMemo h]
  · intro fuel
    cases fuel with
    | zero => rfl
    | succ n => rfl

/-- C2 witness: a diff consisting of the single record "modified
Cargo.toml" produces the whole-workspace sentinel. -/
theorem workspace_manifest_trigger_app :
    workspaceClippy 3 sampleWs [.modified "Cargo.toml".data] =
      .ok .workspaceRun :=
  workspace_manifest_trigger.1 3 sampleWs [.modified "Cargo.toml".data]
    ⟨.modified "Cargo.toml".data, by simp,
     Or.inl ⟨"Cargo.toml".data, rfl, Or.inl rfl⟩⟩

/-! ## Claim C7: batched membership error -/

/-- The raw path f names the structured target q, which is eligible and
has no owning package. -/
def unownedAt (ws : Workspace) (f : Chars) (q : Dir) : Prop :=
  pathComponents f = q ∧ eligibleFile q ∧ fileOwner ws q = none

lemma option_toList_eq {α : Type} {o : Option α} {a : α} :
    a ∈ o.toList ↔ o = some a := by
  cases o <;> simp [Option.toList, eq_comm]

lemma procOpt_spec (ws : Workspace) (of : Option Chars)
    (st st1 : MemoState) (hInv : MemoInv ws st)
    (h : procOpt ws of st = some st1) :
    MemoInv ws st1 ∧ Grows st st1 ∧
    (∀ q, q ∈ st1.noPackagePaths ↔ q ∈ st.noPackagePaths ∨
      ∃ f, of = some f ∧ unownedAt ws f q) := by
  cases of with
  | none =>
    injection h with h
    subst h
    refine ⟨hInv, grows_refl st, ?_⟩
    intro q
    constructor
    · exact fun hq => Or.inl hq
    · rintro (hq | ⟨f, hf, _⟩)
      · exact hq
      · cases hf
  | some f =>
    unfold procOpt procOne at h
    dsimp only at h
    split_ifs at h with hws
    injection h with h
    subst h
    obtain ⟨i1, i2, i3, _⟩ := getCargo_spec ws (pathComponents f) st hInv
    refine ⟨i1, i2, ?_⟩
    intro q
    rw [i3 q]
    constructor
    · rintro (hq | ⟨rfl, he, hfo⟩)
      · exact Or.inl hq
      · exact Or.inr ⟨f, rfl, rfl, he, hfo⟩
    · rintro (hq | ⟨f2, hf2, hpc, he, hfo⟩)
      · exact Or.inl hq
      · injection hf2 with hf2
        subst hf2
        exact Or.inr ⟨hpc.symm, hpc ▸ he, hpc ▸ hfo⟩

lemma runStatuses_spec (ws : Workspace) :
    ∀ (records : List GitStatus) (st st2 : MemoState), MemoInv ws st →
      runStatuses ws records st = some st2 →
      MemoInv ws st2 ∧ Grows st st2 ∧
      (∀ q, q ∈ st2.noPackagePaths ↔ q ∈ st.noPackagePaths ∨
        ∃ r, r ∈ records ∧ ∃ f, f ∈ recordFiles r ∧ unownedAt ws f q) := by
  intro records
  induction records with
  | nil =>
    intro st st2 hInv h
    injection h with h
    subst h
    refine ⟨hInv, grows_refl st, ?_⟩
    intro q
    constructor
    · exact fun hq => Or.inl hq
    · rintro (hq | ⟨r, hr, _⟩)
      · exact hq
      · cases hr
  | cons r rs ih =>
    intro st st2 hInv h
    unfold runStatuses at h
    cases h1 : procOpt ws (statusFiles r).1 st with
    | none => rw [h1] at h; cases h
    | some stm =>
      rw [h1] at h
      dsimp only at h
      cases h2 : procOpt ws (statusFiles r).2 stm with
      | none => rw [h2] at h; cases h
      | some stn =>
        rw [h2] at h
        dsimp only at h
        obtain ⟨p1, p2, p3⟩ := procOpt_spec ws (statusFiles r).1 st stm hInv h1
        obtain ⟨q1, q2, q3⟩ := procOpt_spec ws (statusFiles r).2 stm stn p1 h2
        obtain ⟨j1, j2, j3⟩ := ih stn st2 q1 h
        refine ⟨j1, grows_trans (grows_trans p2 q2) j2, ?_⟩
        intro q
        rw [j3 q, q3 q, p3 q]
        constructor
        · rintro (((hq | ⟨f, hf, hu⟩) | ⟨f, hf, hu⟩) | ⟨r2, hr2, hex⟩)
          · exact Or.inl hq
          · refine Or.inr ⟨r, by simp, f, ?_, hu⟩
            unfold recordFiles
            exact List.mem_append.mpr (Or.inl (option_toList_eq.mpr hf))
          · refine Or.inr ⟨r, by simp, f, ?_, hu⟩
            unfold recordFiles
            exact List.mem_append.mpr (Or.inr (option_toList_eq.mpr hf))
          · exact Or.inr ⟨r2, by simp [hr2], hex⟩
        · rintro (hq | ⟨r2, hr2, f, hf, hu⟩)
          · exact Or.inl (Or.inl (Or.inl hq))
          · rcases List.mem_cons.mp hr2 with rfl | hr2
            · unfold recordFiles at hf
              rcases List.mem_append.mp hf with hf | hf
              · exact Or.inl (Or.inl (Or.inr ⟨f, option_toList_eq.mp hf, hu⟩))
              · exact Or.inl (Or.inr ⟨f, option_toList_eq.mp hf, hu⟩)
            · exact Or.inr ⟨r2, hr2, f, hf, hu⟩

/-- C7.  When no record triggers the whole-workspace run (the membership
pass over the whole record list completes with tables st) and the unowned
set is non-empty, workspace_clippy fails with the single combined
membership error carrying exactly that set — and the set contains
precisely the eligible files of all the records, first or later, whose
parent chain holds no manifest: nothing fails on the first unowned file,
every record is processed. -/
theorem membership_error_batched (fuel : Nat) (ws : Workspace)
    (records : List GitStatus) (st : MemoState)
    (hrun : runStatuses ws records emptyMemo = some st)
    (hne : st.noPackagePaths ≠ []) :
    workspaceClippy fuel ws records =
      .error (.membership st.noPackagePaths) ∧
    (∀ q, q ∈ st.noPackagePaths ↔
      ∃ r, r ∈ records ∧ ∃ f, f ∈ recordFiles r ∧ unownedAt ws f q) := by
  constructor
  · unfold workspaceClippy
    rw [hrun]
    dsimp only
    rw [if_neg hne]
  · intro q
    have h3 := (runStatuses_spec ws records emptyMemo st
      (memoInv_empty ws) hrun).2.2 q
    rw [h3]
    constructor
    · rintro (hq | hex)
      · cases hq
      · exact hex
    · exact fun hex => Or.inr hex

/-- The record list of the C7 witness: two source files outside any
package surrounding one owned source file. -/
def recsC7 : List GitStatus :=
  [.modified "stray/lib.rs".data, .modified "crates/a/src/lib.rs".data,
   .modified "other/main.rs".data]

/-- The memo state the membership pass over recsC7 produces in the sample
workspace. -/
def stC7 : MemoState :=
  { packagePaths :=
      [(["crates".data, "a".data, "src".data], ["crates".data, "a".data]),
       (["crates".data, "a".data], ["crates".data, "a".data])]
    noPackageDirs := [["stray".data], [], ["other".data]]
    noPackagePaths :=
      [["stray".data, "lib.rs".data], ["other".data, "main.rs".data]] }

example : runStatuses sampleWs recsC7 emptyMemo = some stC7 := by decide

/-- C7 witness: the batched error for the concrete three-record diff, and
the characterization instantiated at the first unowned path. -/
theorem membership_error_batched_app :
    workspaceClippy 5 sampleWs recsC7 =
      .error (.membership stC7.noPackagePaths) ∧
    (["stray".data, "lib.rs".data] ∈ stC7.noPackagePaths ↔
      ∃ r, r ∈ recsC7 ∧ ∃ f, f ∈ recordFiles r ∧
        unownedAt sampleWs f ["stray".data, "lib.rs".data]) := by
  have h := membership_error_batched 5 sampleWs recsC7 stC7
    (by decide) (by decide)
  exact ⟨h.1, h.2 ["stray".data, "lib.rs".data]⟩

/-! ## Claim C1: the closure reduction computes the top-level set -/

/-- The dependency list of a package, as the reducer reads it: the keys of
its dependencies table, empty when the manifest cannot be read (a case a
successful run never consults). -/
def depsF (manifestOf : String → Option (List String)) (n : String) :
    List String :=
  (manifestOf n).getD []

/-- One-or-more-step dependency reachability through internal packages:
the traversal the reducer performs follows a dependency edge, and
continues from a dependency only when it is an internal package. -/
inductive ReachesD (internal : List String) (deps : String → List String) :
    String → String → Prop
  | direct {a b : String} : b ∈ deps a → ReachesD internal deps a b
  | trans {a m b : String} : m ∈ deps a → m ∈ internal →
      ReachesD internal deps m b → ReachesD internal deps a b

lemma reachesD_append {internal : List String} {deps : String → List String}
    {a m b : String} (h : ReachesD internal deps a m) (hm : m ∈ internal)
    (hb : b ∈ deps m) : ReachesD internal deps a b := by
  induction h with
  | direct hd => exact .trans hd hm (.direct hb)
  | trans hd hI _ ih => exact .trans hd hI (ih hm hb)

lemma bfsDepPass_fst (analyzed internal : List String) :
    ∀ (deps topLevel rest : List String) (b : String),
      b ∈ (bfsDepPass analyzed internal deps topLevel rest).1 ↔
        b ∈ topLevel ∧ b ∉ deps := by
  intro deps
  induction deps with
  | nil => intro topLevel rest b; simp [bfsDepPass]
  | cons dep deps ih =>
    intro topLevel rest b
    have hstep : bfsDepPass analyzed internal (dep :: deps) topLevel rest =
        bfsDepPass analyzed internal deps
          (topLevel.filter (fun x => decide (x ≠ dep)))
          (if dep ∈ analyzed then rest
           else if dep ∈ internal then rest ++ [dep] else rest) := by
      simp only [bfsDepPass, List.foldl_cons]
    rw [hstep, ih]
    simp only [List.mem_filter, decide_eq_true_eq, List.mem_cons]
    tauto

lemma bfsDepPass_snd (analyzed internal : List String) :
    ∀ (deps topLevel rest : List String) (d : String),
      d ∈ (bfsDepPass analyzed internal deps topLevel rest).2 ↔
        d ∈ rest ∨ (d ∈ deps ∧ d ∉ analyzed ∧ d ∈ internal) := by
  intro deps
  induction deps with
  | nil => intro topLevel rest d; simp [bfsDepPass]
  | cons dep deps ih =>
    intro topLevel rest d
    have hstep : bfsDepPass analyzed internal (dep :: deps) topLevel rest =
        bfsDepPass analyzed internal deps
          (topLevel.filter (fun x => decide (x ≠ dep)))
          (if dep ∈ analyzed then rest
           else if dep ∈ internal then rest ++ [dep] else rest) := by
      simp only [bfsDepPass, List.foldl_cons]
    rw [hstep, ih]
    by_cases ha : dep ∈ analyzed
    · rw [if_pos ha]
      simp only [List.mem_cons]
      constructor
      · rintro (hd | ⟨hd1, hd2, hd3⟩)
        · exact Or.inl hd
        · exact Or.inr ⟨Or.inr hd1, hd2, hd3⟩
      · rintro (hd | ⟨hd1 | hd1, hd2, hd3⟩)
        · exact Or.inl hd
        · exact absurd (hd1 ▸ ha) hd2
        · exact Or.inr ⟨hd1, hd2, hd3⟩
    · rw [if_neg ha]
      by_cases hi : dep ∈ internal
      · rw [if_pos hi]
        simp only [List.mem_append, List.mem_cons, List.not_mem_nil, or_false]
        constructor
        · rintro ((hd | rfl) | ⟨hd1, hd2, hd3⟩)
          · exact Or.inl hd
          · exact Or.inr ⟨Or.inl rfl, ha, hi⟩
          · exact Or.inr ⟨Or.inr hd1, hd2, hd3⟩
        · rintro (hd | ⟨rfl | hd1, hd2, hd3⟩)
          · exact Or.inl (Or.inl hd)
          · exact Or.inl (Or.inr rfl)
          · exact Or.inr ⟨hd1, hd2, hd3⟩
      · rw [if_neg hi]
        simp only [List.mem_cons]
        constructor
        · rintro (hd | ⟨hd1, hd2, hd3⟩)
          · exact Or.inl hd
          · exact Or.inr ⟨Or.inr hd1, hd2, hd3⟩
        · rintro (hd | ⟨rfl | hd1, hd2, hd3⟩)
          · exact Or.inl hd
          · exact absurd hd3 hi
          · exact Or.inr ⟨hd1, hd2, hd3⟩

/-- A package the traversal may legitimately reach: a changed package, or
an internal package reachable from a changed one. -/
def Reached (internal : List String) (deps : String → List String)
    (changed : List String) (n : String) : Prop :=
  n ∈ changed ∨ ∃ a, a ∈ changed ∧ ReachesD internal deps a n

/-- The loop invariant of the closure reduction. -/
def BfsInv (internal : List String)
    (manifestOf : String → Option (List String))
    (changed : List String) (st : BfsState) : Prop :=
  (∀ n, n ∈ st.queue → n ∈ internal ∧
    Reached internal (depsF manifestOf) changed n) ∧
  (∀ n, n ∈ st.analyzed → n ∈ internal ∧
    Reached internal (depsF manifestOf) changed n) ∧
  (∀ n ds, lookupA st.cargos n = some ds → manifestOf n = some ds) ∧
  (∀ b, b ∈ st.topLevel ↔ b ∈ changed ∧
    ∀ n, n ∈ st.analyzed → b ∉ depsF manifestOf n) ∧
  (∀ n d, n ∈ st.analyzed → d ∈ depsF manifestOf n → d ∈ internal →
    d ∈ st.analyzed ∨ d ∈ st.queue) ∧
  (∀ c, c ∈ changed → c ∈ st.analyzed ∨ c ∈ st.queue)

lemma loadCargo_spec (internal : List String)
    (manifestOf : String → Option (List String))
    (cargos : List (String × List String)) (n : String)
    (cargos2 : List (String × List String)) (ds : List String)
    (hc : ∀ m x, lookupA cargos m = some x → manifestOf m = some x)
    (h : loadCargo internal manifestOf cargos n = some (cargos2, ds)) :
    manifestOf n = some ds ∧
    (∀ m x, lookupA cargos2 m = some x → manifestOf m = some x) := by
  unfold loadCargo at h
  cases hl : lookupA cargos n with
  | some d0 =>
    rw [hl] at h
    injection h with h
    rw [show cargos2 = cargos from (congrArg Prod.fst h).symm,
      show ds = d0 from (congrArg Prod.snd h).symm]
    exact ⟨hc n d0 hl, hc⟩
  | none =>
    rw [hl] at h
    split_ifs at h with hi
    · cases hm : manifestOf n with
      | none => rw [hm] at h; cases h
      | some d0 =>
        rw [hm] at h
        injection h with h
        rw [show cargos2 = insertA cargos n d0 from (congrArg Prod.fst h).symm,
          show ds = d0 from (congrArg Prod.snd h).symm]
        refine ⟨rfl, ?_⟩
        intro m x hmx
        by_cases hmn : m = n
        · subst hmn
          rw [lookupA_insertA_self] at hmx
          injection hmx with hmx
          rw [← hmx]
          exact hm
        · rw [lookupA_insertA_ne cargos n m d0 hmn] at hmx
          exact hc m x hmx

/-- Partial correctness of the loop: a run that terminates leaves a final
analyzed set that covers the changed packages, is sound for reachability,
is closed under internal dependency edges, and characterizes the returned
top-level set. -/
lemma bfsLoop_final (internal : List String)
    (manifestOf : String → Option (List String)) (changed : List String) :
    ∀ (fuel : Nat) (st : BfsState) (T : List String),
      BfsInv internal manifestOf changed st →
      bfsLoop internal manifestOf fuel st = some T →
      ∃ A : List String,
        (∀ c, c ∈ changed → c ∈ A) ∧
        (∀ n, n ∈ A → n ∈ internal) ∧
        (∀ n, n ∈ A → Reached internal (depsF manifestOf) changed n) ∧
        (∀ n d, n ∈ A → d ∈ depsF manifestOf n → d ∈ internal → d ∈ A) ∧
        (∀ b, b ∈ T ↔ b ∈ changed ∧
          ∀ n, n ∈ A → b ∉ depsF manifestOf n) := by
  intro fuel
  induction fuel with
  | zero =>
    intro st T hInv hrun
    unfold bfsLoop at hrun
    cases hq : st.queue with
    | cons n rest => rw [hq] at hrun; cases hrun
    | nil =>
      rw [hq] at hrun
      injection hrun with hrun
      subst hrun
      refine ⟨st.analyzed, ?_, ?_, ?_, ?_, hInv.2.2.2.1⟩
      · intro c hc
        rcases hInv.2.2.2.2.2 c hc with h | h
        · exact h
        · rw [hq] at h; cases h
      · exact fun n hn => (hInv.2.1 n hn).1
      · exact fun n hn => (hInv.2.1 n hn).2
      · intro n d hn hd hdi
        rcases hInv.2.2.2.2.1 n d hn hd hdi with h | h
        · exact h
        · rw [hq] at h; cases h
  | succ fuel ih =>
    intro st T hInv hrun
    unfold bfsLoop at hrun
    cases hq : st.queue with
    | nil =>
      rw [hq] at hrun
      injection hrun with hrun
      subst hrun
      refine ⟨st.analyzed, ?_, ?_, ?_, ?_, hInv.2.2.2.1⟩
      · intro c hc
        rcases hInv.2.2.2.2.2 c hc with h | h
        · exact h
        · rw [hq] at h; cases h
      · exact fun n hn => (hInv.2.1 n hn).1
      · exact fun n hn => (hInv.2.1 n hn).2
      · intro n d hn hd hdi
        rcases hInv.2.2.2.2.1 n d hn hd hdi with h | h
        · exact h
        · rw [hq] at h; cases h
    | cons n rest =>
      rw [hq] at hrun
      dsimp only at hrun
      cases hl : loadCargo internal manifestOf st.cargos n with
      | none => rw [hl] at hrun; cases hrun
      | some pair =>
        obtain ⟨cargos2, ds⟩ := pair
        rw [hl] at hrun
        dsimp only at hrun
        obtain ⟨hmn, hcc2⟩ :=
          loadCargo_spec internal manifestOf st.cargos n cargos2 ds
            hInv.2.2.1 hl
        have hds : depsF manifestOf n = ds := by
          unfold depsF
          rw [hmn]
          rfl
        have hnq : n ∈ internal ∧
            Reached internal (depsF manifestOf) changed n :=
          hInv.1 n (by rw [hq]; simp)
        have hrest : ∀ m, m ∈ rest → m ∈ internal ∧
            Reached internal (depsF manifestOf) changed m := by
          intro m hm
          exact hInv.1 m (by rw [hq]; simp [hm])
        apply ih _ T ?_ hrun
        set analyzed2 := insertL st.analyzed n with hdefa
        constructor
        · -- queue invariant
          intro m hm
          rw [show (⟨(bfsDepPass analyzed2 internal ds st.topLevel rest).2,
            analyzed2, (bfsDepPass analyzed2 internal ds st.topLevel rest).1,
            cargos2⟩ : BfsState).queue =
            (bfsDepPass analyzed2 internal ds st.topLevel rest).2 from rfl]
            at hm
          rcases (bfsDepPass_snd analyzed2 internal ds st.topLevel rest m).mp
            hm with hm | ⟨hm1, _, hm3⟩
          · exact hrest m hm
          · refine ⟨hm3, ?_⟩
            rw [← hds] at hm1
            rcases hnq.2 with hch | ⟨a, ha, har⟩
            · exact Or.inr ⟨n, hch, .direct hm1⟩
            · exact Or.inr ⟨a, ha, reachesD_append har hnq.1 hm1⟩
        constructor
        · -- analyzed invariant
          intro m hm
          rcases (mem_insertL st.analyzed n m).mp hm with hm | rfl
          · exact hInv.2.1 m hm
          · exact hnq
        constructor
        · exact hcc2
        constructor
        · -- top-level characterization
          intro b
          rw [show (⟨(bfsDepPass analyzed2 internal ds st.topLevel rest).2,
            analyzed2, (bfsDepPass analyzed2 internal ds st.topLevel rest).1,
            cargos2⟩ : BfsState).topLevel =
            (bfsDepPass analyzed2 internal ds st.topLevel rest).1 from rfl]
          rw [bfsDepPass_fst analyzed2 internal ds st.topLevel rest b]
          rw [hInv.2.2.2.1 b]
          constructor
          · rintro ⟨⟨hb, hold⟩, hnd⟩
            refine ⟨hb, ?_⟩
            intro m hm
            rcases (mem_insertL st.analyzed n m).mp hm with hm | rfl
            · exact hold m hm
            · rw [hds]; exact hnd
          · rintro ⟨hb, hall⟩
            refine ⟨⟨hb, ?_⟩, ?_⟩
            · intro m hm
              exact hall m ((mem_insertL st.analyzed n m).mpr (Or.inl hm))
            · rw [← hds]
              exact hall n ((mem_insertL st.analyzed n n).mpr (Or.inr rfl))
        constructor
        · -- closure-pending invariant
          intro m d hm hd hdi
          rcases (mem_insertL st.analyzed n m).mp hm with hm | rfl
          · rcases hInv.2.2.2.2.1 m d hm hd hdi with hda | hdq
            · exact Or.inl ((mem_insertL st.analyzed n d).mpr (Or.inl hda))
            · rw [hq] at hdq
              rcases List.mem_cons.mp hdq with rfl | hdq
              · exact Or.inl ((mem_insertL st.analyzed _ _).mpr (Or.inr rfl))
              · exact Or.inr ((bfsDepPass_snd analyzed2 internal ds
                  st.topLevel rest d).mpr (Or.inl hdq))
          · by_cases hda : d ∈ analyzed2
            · exact Or.inl hda
            · refine Or.inr ((bfsDepPass_snd analyzed2 internal ds
                st.topLevel rest d).mpr (Or.inr ⟨?_, hda, hdi⟩))
              rw [← hds]
              exact hd
        · -- coverage
          intro c hc
          rcases hInv.2.2.2.2.2 c hc with hca | hcq
          · exact Or.inl ((mem_insertL st.analyzed n c).mpr (Or.inl hca))
          · rw [hq] at hcq
            rcases List.mem_cons.mp hcq with rfl | hcq
            · exact Or.inl ((mem_insertL st.analyzed c c).mpr (Or.inr rfl))
            · exact Or.inr ((bfsDepPass_snd analyzed2 internal ds
                st.topLevel rest c).mpr (Or.inl hcq))

lemma reach_hits_closed_set (internal : List String)
    (deps : String → List String) (A : List String)
    (hclosed : ∀ n d, n ∈ A → d ∈ deps n → d ∈ internal → d ∈ A) :
    ∀ a b, ReachesD internal deps a b → a ∈ A →
      ∃ n, n ∈ A ∧ b ∈ deps n := by
  intro a b h
  induction h with
  | direct hd => exact fun haA => ⟨_, haA, hd⟩
  | trans hd hI _ ih => exact fun haA => ih (hclosed _ _ haA hd hI)

/-- From the final analyzed set's properties to the claim's reachability
characterization, under acyclicity. -/
lemma closure_characterization (internal : List String)
    (deps : String → List String) (changed A T : List String)
    (hacyc : ∀ n, ¬ ReachesD internal deps n n)
    (hcov : ∀ c, c ∈ changed → c ∈ A)
    (hintA : ∀ n, n ∈ A → n ∈ internal)
    (hreach : ∀ n, n ∈ A → Reached internal deps changed n)
    (hclosed : ∀ n d, n ∈ A → d ∈ deps n → d ∈ internal → d ∈ A)
    (hT : ∀ b, b ∈ T ↔ b ∈ changed ∧ ∀ n, n ∈ A → b ∉ deps n) :
    ∀ b, b ∈ T ↔ b ∈ changed ∧
      ¬ ∃ a, a ∈ changed ∧ a ≠ b ∧ ReachesD internal deps a b := by
  intro b
  rw [hT b]
  constructor
  · rintro ⟨hb, hnone⟩
    refine ⟨hb, ?_⟩
    rintro ⟨a, ha, _, hr⟩
    obtain ⟨n, hnA, hbn⟩ :=
      reach_hits_closed_set internal deps A hclosed a b hr (hcov a ha)
    exact hnone n hnA hbn
  · rintro ⟨hb, hno⟩
    refine ⟨hb, ?_⟩
    intro n hnA hbn
    rcases (hreach n hnA) with hch | ⟨a, ha, har⟩
    · by_cases hne : n = b
      · subst hne
        exact hacyc n (.direct hbn)
      · exact hno ⟨n, hch, hne, .direct hbn⟩
    · have hr2 : ReachesD internal deps a b :=
        reachesD_append har (hintA n hnA) hbn
      by_cases hne : a = b
      · subst hne
        exact hacyc a hr2
      · exact hno ⟨a, ha, hne, hr2⟩

/-- C1.  Partial correctness of the dependency closure reducer: whenever
the loop, seeded with the changed package names in any order and with the
changed packages' parsed manifests cached consistently, terminates with a
top-level set T over an acyclic internal dependency graph, T consists of
exactly the changed packages that are not transitive dependencies of
another changed package (transitive through internal packages, as the
traversal explores).  The seed list is quantified up to membership, so the
characterization holds regardless of the breadth-first traversal order. -/
theorem bfs_top_level_characterization
    (internal : List String) (manifestOf : String → Option (List String))
    (changed seeds : List String)
    (cargos0 : List (String × List String)) (fuel : Nat) (T : List String)
    (hseed : ∀ n, n ∈ seeds ↔ n ∈ changed)
    (hint : ∀ n, n ∈ changed → n ∈ internal)
    (hcc : ∀ n ds, lookupA cargos0 n = some ds → manifestOf n = some ds)
    (hacyc : ∀ n, ¬ ReachesD internal (depsF manifestOf) n n)
    (hrun : bfsLoop internal manifestOf fuel
      ⟨seeds, [], changed, cargos0⟩ = some T) :
    ∀ b, b ∈ T ↔ b ∈ changed ∧
      ¬ ∃ a, a ∈ changed ∧ a ≠ b ∧
        ReachesD internal (depsF manifestOf) a b := by
  have hInv0 : BfsInv internal manifestOf changed
      ⟨seeds, [], changed, cargos0⟩ := by
    refine ⟨?_, ?_, hcc, ?_, ?_, ?_⟩
    · intro n hn
      have hc := (hseed n).mp hn
      exact ⟨hint n hc, Or.inl hc⟩
    · intro n hn
      cases hn
    · intro b
      constructor
      · intro hb
        exact ⟨hb, fun n hn => by cases hn⟩
      · exact fun h => h.1
    · intro n d hn
      cases hn
    · intro c hc
      exact Or.inr ((hseed c).mpr hc)
  obtain ⟨A, hcov, hintA, hreach, hclosed, hT⟩ :=
    bfsLoop_final internal manifestOf changed fuel
      ⟨seeds, [], changed, cargos0⟩ T hInv0 hrun
  exact closure_characterization internal (depsF manifestOf) changed A T
    hacyc hcov hintA hreach hclosed hT

/-- The two-package workspace of the C1 witness: package a depends on
package b, both changed. -/
def mfW : String → Option (List String) := fun n =>
  if n = "a" then some ["b"] else if n = "b" then some [] else none

lemma reachesW_shape :
    ∀ x y, ReachesD ["a", "b"] (depsF mfW) x y → x = "a" ∧ y = "b" := by
  intro x y h
  induction h with
  | direct hd =>
    rename_i a b
    by_cases hx : a = "a"
    · subst hx
      refine ⟨rfl, ?_⟩
      simp [depsF, mfW] at hd
      exact hd
    · by_cases hx2 : a = "b"
      · subst hx2
        simp [depsF, mfW, hx] at hd
      · simp [depsF, mfW, hx, hx2] at hd
  | trans hd hI hr ih =>
    rename_i a m b
    exfalso
    by_cases hx : a = "a"
    · subst hx
      have hm : m = "b" := by
        simp [depsF, mfW] at hd
        exact hd
      rw [hm] at ih
      exact absurd ih.1 (by decide)
    · by_cases hx2 : a = "b"
      · subst hx2
        simp [depsF, mfW, hx] at hd
      · simp [depsF, mfW, hx, hx2] at hd

/-- C1 witness: in the two-package workspace with a depending on b, both
changed, the reducer seeded in the order [b, a] returns exactly [a]; the
instantiated characterization at b states that b is excluded because it is
a dependency of the other changed package a. -/
theorem bfs_top_level_characterization_app :
    ("b" ∈ (["a"] : List String)) ↔
      ("b" ∈ (["a", "b"] : List String) ∧
        ¬ ∃ x, x ∈ (["a", "b"] : List String) ∧ x ≠ "b" ∧
          ReachesD ["a", "b"] (depsF mfW) x "b") :=
  bfs_top_level_characterization ["a", "b"] mfW ["a", "b"] ["b", "a"]
    [("a", ["b"]), ("b", [])] 5 ["a"]
    (by intro n; simp only [List.mem_cons, List.not_mem_nil, or_false]; tauto)
    (fun n h => h)
    (by
      intro n ds h
      simp only [lookupA] at h
      by_cases h1 : n = "a"
      · rw [if_pos h1] at h
        injection h with h
        rw [h1, ← h]
        rfl
      · rw [if_neg h1] at h
        by_cases h2 : n = "b"
        · rw [if_pos h2] at h
          injection h with h
          rw [h2, ← h]
          rfl
        · rw [if_neg h2] at h
          cases h)
    (by
      intro n hn
      obtain ⟨h1, h2⟩ := reachesW_shape n n hn
      exact absurd (h1.symm.trans h2) (by decide))
    (by decide) "b"
